import Mathlib

/-!
Shallow embedding of the semantic search engine:
the hypergraph data model (data.py), the four ranking strategies
(search_strategies.py) and the evaluation league (self_improver.py).

Modelling conventions:
* Python floats are modelled as exact rationals; the real-valued
  function math.log is modelled as an abstract parameter logQ : Q -> Q,
  so every theorem about tf-idf scores holds for the log function itself.
* Python dicts are association lists whose first binding for a key wins;
  insertion order is list order, matching CPython dict semantics.
* Python sets are insertion-ordered duplicate-free lists; the code never
  depends on set iteration order except for tie order, which no claim fixes.
* Python strings are processed as their character lists, with
  structurally recursive split/trim/substring functions mirroring
  str.split, str.strip, str.lower and the in operator.
-/

namespace SSE

/-- Dict lookup on an association list: the first binding for a key wins,
like a Python dict (which never holds two bindings for one key). -/
def lookup {κ α : Type} [DecidableEq κ] : List (κ × α) → κ → Option α
  | [], _ => none
  | p :: rest, k => if p.1 = k then some p.2 else lookup rest k

/-- Dict lookup with a default, Python dict.get(k, d). -/
def lookupD {κ α : Type} [DecidableEq κ] (m : List (κ × α)) (k : κ) (d : α) : α :=
  (lookup m k).getD d

/-- Dict assignment m[k] = v: replace the binding in place, else append. -/
def upsert {κ α : Type} [DecidableEq κ] : List (κ × α) → κ → α → List (κ × α)
  | [], k, v => [(k, v)]
  | p :: rest, k, v => if p.1 = k then (p.1, v) :: rest else p :: upsert rest k v

/-- Python defaultdict(float) update m[k] += v (reading inserts 0.0 first,
so the net effect on the binding is old + v, or v for a fresh key). -/
def dd_add : List (String × ℚ) → String → ℚ → List (String × ℚ)
  | [], k, v => [(k, 0 + v)]
  | p :: rest, k, v => if p.1 = k then (p.1, p.2 + v) :: rest else p :: dd_add rest k v

/-- Python defaultdict(float) update m[k] = max(m[k], v). -/
def dd_setmax : List (String × ℚ) → String → ℚ → List (String × ℚ)
  | [], k, v => [(k, max 0 v)]
  | p :: rest, k, v => if p.1 = k then (p.1, max p.2 v) :: rest else p :: dd_setmax rest k v

/-- The guarded propagation update of GraphTraversalSearch.search:
if v > m[k] then m[k] = max(m[k], v), on a defaultdict(float) whose
read inserts 0.0 for a missing key. -/
def prop_update : List (String × ℚ) → String → ℚ → List (String × ℚ)
  | [], k, v => if (0 : ℚ) < v then [(k, max 0 v)] else [(k, 0)]
  | p :: rest, k, v =>
    if p.1 = k then (if p.2 < v then (p.1, max p.2 v) :: rest else p :: rest)
    else p :: prop_update rest k v

/-- Python defaultdict(int) update m[t] += 1 used for document frequencies. -/
def tdf_add : List (List Char × Nat) → List Char → List (List Char × Nat)
  | [], t => [(t, 0 + 1)]
  | p :: rest, t => if p.1 = t then (p.1, p.2 + 1) :: rest else p :: tdf_add rest t

/-- Lower-case a character list (Python str.lower on ASCII text). -/
def lowerChars (l : List Char) : List Char := l.map Char.toLower

/-- Helper for splitWs, accumulating the current token reversed. -/
def splitWsAux : List Char → List Char → List (List Char)
  | [], acc => if acc = [] then [] else [acc.reverse]
  | c :: cs, acc =>
    if c.isWhitespace then
      if acc = [] then splitWsAux cs [] else acc.reverse :: splitWsAux cs []
    else splitWsAux cs (c :: acc)

/-- Python str.split() with no separator: split on whitespace runs and
drop empty tokens. -/
def splitWs (l : List Char) : List (List Char) := splitWsAux l []

/-- Python str.strip(): drop leading and trailing whitespace. -/
def trimChars (l : List Char) : List Char :=
  ((l.dropWhile Char.isWhitespace).reverse.dropWhile Char.isWhitespace).reverse

/-- Python substring test pat in hay. -/
def containsSub (pat : List Char) : List Char → Bool
  | [] => pat.isPrefixOf []
  | c :: rest => pat.isPrefixOf (c :: rest) || containsSub pat rest

/-- Helper for splitOnSep: scan the text, skipping k already-matched
separator characters, with the current piece accumulated reversed. -/
def splitOnSepGo (sep : List Char) : List Char → Nat → List Char → List (List Char)
  | [], _, acc => [acc.reverse]
  | _ :: rest, k + 1, acc => splitOnSepGo sep rest k acc
  | c :: rest, 0, acc =>
    if sep.isPrefixOf (c :: rest) then acc.reverse :: splitOnSepGo sep rest (sep.length - 1) []
    else splitOnSepGo sep rest 0 (c :: acc)

/-- Python str.split(sep) for a non-empty separator: split at each
leftmost non-overlapping occurrence, keeping empty pieces. -/
def splitOnSep (sep l : List Char) : List (List Char) := splitOnSepGo sep l 0 []

/-- Node of the knowledge graph (data.py). The open metadata mapping is
modelled by the only two keys the engine ever reads, description and
tags, with their Python defaults; other keys are ignored by all code. -/
structure Node where
  id : String
  label : String
  kind : String
  description : String
  tags : List String
deriving DecidableEq, Repr, Inhabited

/-- Node.text_signature as a character list: the characters of
the Python f-string "label kind description tags-joined-by-spaces"
followed by .strip(). -/
def Node.text_signature (n : Node) : List Char :=
  trimChars (n.label.data ++ [' '] ++ n.kind.data ++ [' '] ++ n.description.data
    ++ [' '] ++ List.intercalate [' '] (n.tags.map String.data))

/-- Hyperedge of the knowledge graph (metadata, unread by the engine,
is omitted). -/
structure Hyperedge where
  id : String
  relation : String
  node_ids : List String
  weight : ℚ
deriving DecidableEq, Repr

/-- The in-memory hypergraph: id-to-node map, id-to-edge map and the
derived adjacency index from node id to the ids of incident hyperedges. -/
structure KnowledgeGraph where
  nodes : List (String × Node)
  hyperedges : List (String × Hyperedge)
  node_to_edges : List (String × List String)
deriving DecidableEq, Repr

def KnowledgeGraph.empty : KnowledgeGraph := ⟨[], [], []⟩

/-- Python setdefault(k, set()) on the adjacency index. -/
def sdIndex : List (String × List String) → String → List (String × List String)
  | [], k => [(k, [])]
  | p :: rest, k => if p.1 = k then p :: rest else p :: sdIndex rest k

def KnowledgeGraph.add_node (g : KnowledgeGraph) (n : Node) : KnowledgeGraph :=
  { g with nodes := upsert g.nodes n.id n, node_to_edges := sdIndex g.node_to_edges n.id }

/-- Python setdefault(nid, set()).add(eid): register edge eid against
node id nid in the adjacency index. -/
def idxAdd : List (String × List String) → String → String → List (String × List String)
  | [], k, e => [(k, [e])]
  | p :: rest, k, e =>
    if p.1 = k then (p.1, if e ∈ p.2 then p.2 else p.2 ++ [e]) :: rest
    else p :: idxAdd rest k e

def KnowledgeGraph.add_hyperedge (g : KnowledgeGraph) (e : Hyperedge) : KnowledgeGraph :=
  { g with hyperedges := upsert g.hyperedges e.id e,
           node_to_edges := e.node_ids.foldl (fun idx nid => idxAdd idx nid e.id) g.node_to_edges }

/-- KnowledgeGraph.neighbors: every node reachable through a hyperedge
incident to node_id, skipping node_id itself and dangling node ids.
In the source the edge map access hyperedges[edge_id] is a direct index;
for graphs built through the two add operations an indexed edge id is
always registered, and the otherwise-crashing access is modelled as
yielding nothing. -/
def KnowledgeGraph.neighbors (g : KnowledgeGraph) (node_id : String) : List Node :=
  (lookupD g.node_to_edges node_id []).flatMap (fun eid =>
    match lookup g.hyperedges eid with
    | some edge => edge.node_ids.filterMap (fun rid =>
        if rid = node_id then none else lookup g.nodes rid)
    | none => [])

/-- KnowledgeGraph.all_nodes: the nodes in insertion order. -/
def KnowledgeGraph.all_nodes (g : KnowledgeGraph) : List Node := g.nodes.map (·.2)

/-- One mutating call on a graph being built. -/
inductive Op where
  | addNode (n : Node)
  | addEdge (e : Hyperedge)

def applyOp (g : KnowledgeGraph) : Op → KnowledgeGraph
  | .addNode n => g.add_node n
  | .addEdge e => g.add_hyperedge e

/-- A graph built solely through add_node and add_hyperedge calls. -/
def buildGraph (ops : List Op) : KnowledgeGraph := ops.foldl applyOp .empty

/-- One scored search hit: (node, score, strategy name). -/
structure SearchResult where
  node : Node
  score : ℚ
  strategy : String
deriving DecidableEq, Repr

/-- Insert r before the first element with a strictly smaller score. -/
def insertDesc (r : SearchResult) : List SearchResult → List SearchResult
  | [] => [r]
  | x :: xs => if x.score ≤ r.score then r :: x :: xs else x :: insertDesc r xs

/-- Python results.sort(key=score, reverse=True): stable descending sort.
Stable sorts by a total key are extensionally unique, so this insertion
sort computes exactly what the source's stable sort returns. -/
def sortDesc : List SearchResult → List SearchResult
  | [] => []
  | x :: xs => insertDesc x (sortDesc xs)

/-- VectorSemanticSearch._tokenize: lower-case and split on whitespace.
The list comprehension's guard if token.strip() drops nothing, since
str.split() already yields only non-empty whitespace-free tokens. -/
def tokenizeChars (text : List Char) : List (List Char) :=
  (splitWs text).map lowerChars

/-- The mutable state of a VectorSemanticSearch instance: its cached
idf table self._idf (initially the empty dict). -/
structure VectorSemanticSearch where
  idf : List (List Char × ℚ)
deriving DecidableEq, Repr

/-- The term_doc_frequency accumulation of VectorSemanticSearch._build_index:
for every node, each distinct term of its tokenized signature counts once
(Python iterates set(tokenize(signature)); only membership matters, so the
set is modelled as dedup, which keeps first occurrences). -/
def term_doc_frequency (nodes : List Node) : List (List Char × Nat) :=
  nodes.foldl (fun m n => ((tokenizeChars n.text_signature).dedup).foldl tdf_add m) []

/-- VectorSemanticSearch._build_index: idf(t) = log((N+1)/(df+1)) + 1. -/
def VectorSemanticSearch.build_index (logQ : ℚ → ℚ) (nodes : List Node) : List (List Char × ℚ) :=
  (term_doc_frequency nodes).map
    (fun p => (p.1, logQ (((nodes.length : ℚ) + 1) / ((p.2 : ℚ) + 1)) + 1))

/-- Occurrence count of a term in a token list (Python Counter lookup). -/
def countOcc (t : List Char) (l : List (List Char)) : Nat :=
  (l.filter (fun u => u = t)).length

/-- VectorSemanticSearch._score: sum over the query-term list of
(1 + log tf) * idf.get(term, 0.0) for terms with tf non-zero, where tf is
the term's count in the node's tokenized signature (the local variable tf
of the source is inlined). -/
def VectorSemanticSearch.score (logQ : ℚ → ℚ) (idf : List (List Char × ℚ))
    (n : Node) (query_terms : List (List Char)) : ℚ :=
  query_terms.foldl (fun s term =>
    if countOcc term (tokenizeChars n.text_signature) ≠ 0
    then s + (1 + logQ ((countOcc term (tokenizeChars n.text_signature)) : ℚ))
      * lookupD idf term 0
    else s) 0

/-- VectorSemanticSearch.search: build the idf table if the cached dict is
empty (Python if not self._idf), score all nodes, sort by descending
score, keep strictly positive scores, truncate. Returns the instance
state after the call together with the results. -/
def VectorSemanticSearch.search (logQ : ℚ → ℚ) (st : VectorSemanticSearch)
    (g : KnowledgeGraph) (query : String) (limit : Nat) :
    VectorSemanticSearch × List SearchResult :=
  let nodes := g.all_nodes
  let idf := if st.idf = [] then VectorSemanticSearch.build_index logQ nodes else st.idf
  let query_terms := tokenizeChars query.data
  let scored := nodes.map (fun n =>
    SearchResult.mk n (VectorSemanticSearch.score logQ idf n query_terms) "vector")
  (⟨idf⟩, ((sortDesc scored).filter (fun r => 0 < r.score)).take limit)

/-- The lowercased keyword set of GraphTraversalSearch.search
(a Python set used only through any-containment, so duplicates are harmless). -/
def gtKeywords (query : String) : List (List Char) :=
  (splitWs query.data).map lowerChars

/-- The seeding loop of GraphTraversalSearch.search: base_scores[node.id] = 1.0
for every node whose lowercased signature contains some keyword. -/
def GraphTraversalSearch.base_scores (g : KnowledgeGraph) (query : String) :
    List (String × ℚ) :=
  g.all_nodes.foldl (fun m n =>
    if (gtKeywords query).any (fun kw => containsSub kw (lowerChars n.text_signature))
    then upsert m n.id 1 else m) []

/-- The gated propagations produced from one frontier: for each frontier
entry and each neighbor, the value score * 0.6 when it exceeds 0.01.
These are exactly the pairs appended to next_frontier. -/
def gt_gated (g : KnowledgeGraph) (frontier : List (String × ℚ)) : List (String × ℚ) :=
  frontier.flatMap (fun ns =>
    (g.neighbors ns.1).filterMap (fun nb =>
      if (1 : ℚ) / 100 < ns.2 * (3 / 5) then some (nb.id, ns.2 * (3 / 5)) else none))

/-- One hop of the propagation loop. The source interleaves, per gated
pair, the propagation update and the next_frontier append; folding the
updates over the gated list in order performs the same operations in the
same order. -/
def gt_step (g : KnowledgeGraph) (pf : List (String × ℚ) × List (String × ℚ)) :
    List (String × ℚ) × List (String × ℚ) :=
  ((gt_gated g pf.2).foldl (fun m p => prop_update m p.1 p.2) pf.1, gt_gated g pf.2)

/-- The walk_depth-fold repetition of the propagation loop. -/
def gt_walk (g : KnowledgeGraph) : Nat → List (String × ℚ) × List (String × ℚ) →
    List (String × ℚ) × List (String × ℚ)
  | 0, pf => pf
  | d + 1, pf => gt_walk g d (gt_step g pf)

/-- All gated propagated values pushed during d hops from a frontier,
in push order: the concatenation of the successive next_frontier lists. -/
def gt_received (g : KnowledgeGraph) : Nat → List (String × ℚ) → List (String × ℚ)
  | 0, _ => []
  | d + 1, frontier => gt_gated g frontier ++ gt_received g d (gt_gated g frontier)

/-- The combined_scores dict of GraphTraversalSearch.search: base scores
added into a fresh defaultdict, then max-merged with the propagation map. -/
def gt_combined (g : KnowledgeGraph) (walk_depth : Nat) (query : String) :
    List (String × ℚ) :=
  let base := GraphTraversalSearch.base_scores g query
  let prop := (gt_walk g walk_depth ([], base)).1
  let c0 := base.foldl (fun m p => dd_add m p.1 p.2) []
  prop.foldl (fun m p => dd_setmax m p.1 p.2) c0

/-- GraphTraversalSearch.search. The result construction indexes
graph.nodes[node_id] directly; the otherwise-crashing lookup is modelled
by filterMap, and the C10 theorem shows the failure branch is unreachable
for graphs built through the add operations. -/
def GraphTraversalSearch.search (walk_depth : Nat) (g : KnowledgeGraph)
    (query : String) (limit : Nat) : List SearchResult :=
  (sortDesc ((gt_combined g walk_depth query).filterMap (fun p =>
    (lookup g.nodes p.1).map (fun n => SearchResult.mk n p.2 "graph")))).take limit

/-- The facet list of OntologyLensSearch.search: split the query on the
literal delimiter " and ", strip and lower-case each segment, drop the
segments that strip to nothing. -/
def facets (query : String) : List (List Char) :=
  (splitOnSep " and ".data query.data).filterMap (fun seg =>
    if trimChars seg = [] then none else some (lowerChars (trimChars seg)))

/-- The match_count of OntologyLensSearch.search: how many facets have at
least one lowercased tag containing the facet as a substring. -/
def facetMatchCount (fs : List (List Char)) (n : Node) : Nat :=
  (fs.filter (fun f => (n.tags.map (fun t => lowerChars t.data)).any
    (fun tag => containsSub f tag))).length

/-- OntologyLensSearch.search: score match_count / len(filters) for nodes
with non-zero match_count, sort descending, truncate. -/
def OntologyLensSearch.search (g : KnowledgeGraph) (query : String) (limit : Nat) :
    List SearchResult :=
  let fs := facets query
  (sortDesc (g.all_nodes.filterMap (fun n =>
    if facetMatchCount fs n ≠ 0
    then some (SearchResult.mk n ((facetMatchCount fs n : ℚ) / (fs.length : ℚ)) "ontology")
    else none))).take limit

/-- A constituent strategy as the hybrid and the league see it: a name and
a search capability. -/
structure SearchStrategy where
  name : String
  search : KnowledgeGraph → String → Nat → List SearchResult

/-- The mutable state of a HybridSelfImprovingSearch instance: its
constituent strategies and its per-strategy weight dict. -/
structure HybridSelfImprovingSearch where
  strategies : List SearchStrategy
  weights : List (String × ℚ)

/-- HybridSelfImprovingSearch.__init__: every constituent weight starts at 1.0. -/
def hybrid_init (strategies : List SearchStrategy) : HybridSelfImprovingSearch :=
  ⟨strategies, strategies.map (fun s => (s.name, 1))⟩

/-- Python enumerate(results, start=1) with the rank already cast to the
score field. -/
def enumFromQ {α : Type} (i : ℚ) : List α → List (ℚ × α)
  | [] => []
  | x :: xs => (i, x) :: enumFromQ (i + 1) xs

/-- HybridSelfImprovingSearch.search: run every constituent with the same
limit, then fold over all (constituent, ranked result) pairs, adding
weight / rank into score_by_node and recording the node object; finally
rebuild results from the score dict, sort descending, truncate. The
node_obj lookup always succeeds because both dicts gain keys together. -/
def HybridSelfImprovingSearch.search (h : HybridSelfImprovingSearch)
    (g : KnowledgeGraph) (query : String) (limit : Nat) : List SearchResult :=
  let strategy_results := h.strategies.map (fun s => (s.name, s.search g query limit))
  let folded := strategy_results.foldl (fun acc nr =>
    (enumFromQ 1 nr.2).foldl (fun acc2 pr =>
      (dd_add acc2.1 pr.2.node.id (lookupD h.weights nr.1 1 / pr.1),
       upsert acc2.2 pr.2.node.id pr.2.node)) acc) ([], [])
  (sortDesc (folded.1.filterMap (fun p =>
    (lookup folded.2 p.1).map (fun n => SearchResult.mk n p.2 "hybrid")))).take limit

/-- HybridSelfImprovingSearch.update_weights:
new_weight = max(0.1, weights.get(name, 1.0) + learning_rate * delta). -/
def update_weights (h : HybridSelfImprovingSearch)
    (performance : List (String × ℚ)) (learning_rate : ℚ) : HybridSelfImprovingSearch :=
  { h with weights := performance.foldl (fun w p =>
      upsert w p.1 (max (1 / 10) (lookupD w p.1 1 + learning_rate * p.2))) h.weights }

/-- A sequence of update_weights calls, each with its performance map and
learning rate. -/
def apply_updates (h : HybridSelfImprovingSearch)
    (calls : List (List (String × ℚ) × ℚ)) : HybridSelfImprovingSearch :=
  calls.foldl (fun h' c => update_weights h' c.1 c.2) h

/-- One labeled evaluation example of the league. -/
structure QueryExample where
  query : String
  relevant_ids : List String

/-- SearchLeague state: the graph, the constituent strategies, the fixed
evaluation set and the internally owned hybrid instance. -/
structure SearchLeague where
  graph : KnowledgeGraph
  strategies : List SearchStrategy
  evaluation_set : List QueryExample
  hybrid : HybridSelfImprovingSearch

/-- SearchLeague.__init__ wires the hybrid to the same constituents. -/
def league_init (graph : KnowledgeGraph) (strategies : List SearchStrategy)
    (evaluation_set : List QueryExample) : SearchLeague :=
  ⟨graph, strategies, evaluation_set, hybrid_init strategies⟩

/-- SearchLeague._precision_at_k: hits in the first k results divided by
the number of results actually taken; 0.0 for an empty prefix. -/
def precision_at_k (results : List SearchResult) (relevant_ids : List String)
    (k : Nat) : ℚ :=
  let top_k := results.take k
  if top_k = [] then 0
  else ((top_k.filter (fun r => relevant_ids.contains r.node.id)).length : ℚ)
    / (top_k.length : ℚ)

/-- SearchLeague.run_round: accumulate per-strategy precision at 5 and the
per-strategy hybrid advantage over the evaluation set, divide both by
max(example count, 1), feed the mean advantage to update_weights with
learning rate 0.1, and return the mean precision map together with the
league whose hybrid carries the updated weights. -/
def run_round (L : SearchLeague) : SearchLeague × List (String × ℚ) :=
  let perf0 := L.strategies.foldl (fun m s => upsert m s.name 0) []
  let acc := L.evaluation_set.foldl (fun acc ex =>
    let perf1 := L.strategies.foldl (fun m s =>
      dd_add m s.name (precision_at_k (s.search L.graph ex.query 5) ex.relevant_ids 5)) acc.1
    let hybrid_score := precision_at_k (L.hybrid.search L.graph ex.query 5) ex.relevant_ids 5
    let hperf1 := L.strategies.foldl (fun m s =>
      dd_add m s.name (hybrid_score
        - precision_at_k (s.search L.graph ex.query 5) ex.relevant_ids 5)) acc.2
    (perf1, hperf1)) (perf0, perf0)
  let query_count : ℚ := (max L.evaluation_set.length 1 : Nat)
  let performance := acc.1.map (fun p => (p.1, p.2 / query_count))
  let hybrid_performance := acc.2.map (fun p => (p.1, p.2 / query_count))
  ({ L with hybrid := update_weights L.hybrid hybrid_performance (1 / 10) }, performance)

/-! Basic lemmas about the dict model. -/

/-- The values bound to key k among the updates of a pair list, in order. -/
def valsFor (l : List (String × ℚ)) (k : String) : List ℚ :=
  l.filterMap (fun p => if p.1 = k then some p.2 else none)

theorem lookup_upsert {κ α : Type} [DecidableEq κ] (m : List (κ × α)) (k k' : κ) (v : α) :
    lookup (upsert m k v) k' = if k' = k then some v else lookup m k' := by
  induction m with
  | nil =>
    by_cases h : k' = k
    · subst h; simp [upsert, lookup]
    · simp [upsert, lookup, h, Ne.symm h]
  | cons p rest ih =>
    by_cases hp : p.1 = k
    · subst hp
      by_cases h : k' = p.1
      · subst h; simp [upsert, lookup]
      · simp [upsert, lookup, h, Ne.symm h]
    · by_cases h1 : p.1 = k'
      · subst h1
        simp [upsert, lookup, hp]
      · simp [upsert, lookup, hp, h1, ih]

theorem mem_upsert {κ α : Type} [DecidableEq κ] {m : List (κ × α)} {k : κ} {v : α}
    {p : κ × α} (hp : p ∈ upsert m k v) : p ∈ m ∨ p = (k, v) := by
  induction m with
  | nil => simpa [upsert] using hp
  | cons q rest ih =>
    by_cases hq : q.1 = k
    · subst hq
      rcases (by simpa [upsert] using hp : p = (q.1, v) ∨ p ∈ rest) with h | h
      · exact Or.inr h
      · exact Or.inl (List.mem_cons_of_mem _ h)
    · rcases (by simpa [upsert, hq] using hp : p = q ∨ p ∈ upsert rest k v) with h | h
      · exact Or.inl (by simp [h])
      · rcases ih h with h' | h'
        · exact Or.inl (List.mem_cons_of_mem _ h')
        · exact Or.inr h'

theorem lookup_dd_add (m : List (String × ℚ)) (k k' : String) (v : ℚ) :
    lookup (dd_add m k v) k' =
      if k' = k then some (lookupD m k 0 + v) else lookup m k' := by
  induction m with
  | nil =>
    by_cases h : k' = k
    · subst h; simp [dd_add, lookup, lookupD]
    · simp [dd_add, lookup, h, Ne.symm h]
  | cons p rest ih =>
    by_cases hp : p.1 = k
    · subst hp
      by_cases h : k' = p.1
      · subst h; simp [dd_add, lookup, lookupD]
      · simp [dd_add, lookup, h, Ne.symm h]
    · by_cases h1 : p.1 = k'
      · subst h1
        simp [dd_add, lookup, hp]
      · simp [dd_add, lookup, lookupD, hp, h1, ih]

theorem lookup_dd_setmax (m : List (String × ℚ)) (k k' : String) (v : ℚ) :
    lookup (dd_setmax m k v) k' =
      if k' = k then some (max (lookupD m k 0) v) else lookup m k' := by
  induction m with
  | nil =>
    by_cases h : k' = k
    · subst h; simp [dd_setmax, lookup, lookupD]
    · simp [dd_setmax, lookup, h, Ne.symm h]
  | cons p rest ih =>
    by_cases hp : p.1 = k
    · subst hp
      by_cases h : k' = p.1
      · subst h; simp [dd_setmax, lookup, lookupD]
      · simp [dd_setmax, lookup, h, Ne.symm h]
    · by_cases h1 : p.1 = k'
      · subst h1
        simp [dd_setmax, lookup, hp]
      · simp [dd_setmax, lookup, lookupD, hp, h1, ih]

theorem lookup_prop_update (m : List (String × ℚ)) (k k' : String) (v : ℚ) :
    lookup (prop_update m k v) k' =
      if k' = k then some (max (lookupD m k 0) v) else lookup m k' := by
  induction m with
  | nil =>
    by_cases h : k' = k
    · subst h
      by_cases hv : (0 : ℚ) < v
      · simp [prop_update, lookup, lookupD, hv]
      · simp [prop_update, lookup, lookupD, hv, max_eq_left (le_of_not_lt hv)]
    · by_cases hv : (0 : ℚ) < v <;> simp [prop_update, lookup, hv, h, Ne.symm h]
  | cons p rest ih =>
    by_cases hp : p.1 = k
    · subst hp
      by_cases h : k' = p.1
      · subst h
        by_cases hlt : p.2 < v
        · simp [prop_update, lookup, lookupD, hlt]
        · simp [prop_update, lookup, lookupD, hlt, max_eq_left (le_of_not_lt hlt)]
      · by_cases hlt : p.2 < v <;>
          simp [prop_update, lookup, hlt, h, Ne.symm h]
    · by_cases h1 : p.1 = k'
      · subst h1
        simp [prop_update, lookup, hp]
      · simp [prop_update, lookup, lookupD, hp, h1, ih]

theorem lookup_tdf_add (m : List (List Char × Nat)) (t t' : List Char) :
    lookup (tdf_add m t) t' =
      if t' = t then some (lookupD m t 0 + 1) else lookup m t' := by
  induction m with
  | nil =>
    by_cases h : t' = t
    · subst h; simp [tdf_add, lookup, lookupD]
    · simp [tdf_add, lookup, h, Ne.symm h]
  | cons p rest ih =>
    by_cases hp : p.1 = t
    · subst hp
      by_cases h : t' = p.1
      · subst h; simp [tdf_add, lookup, lookupD]
      · simp [tdf_add, lookup, h, Ne.symm h]
    · by_cases h1 : p.1 = t'
      · subst h1
        simp [tdf_add, lookup, hp]
      · simp [tdf_add, lookup, lookupD, hp, h1, ih]

/-! Fold-level lemmas about the dict model. -/

theorem valsFor_nil (k : String) : valsFor [] k = [] := rfl

theorem valsFor_cons (p : String × ℚ) (l : List (String × ℚ)) (k : String) :
    valsFor (p :: l) k = if p.1 = k then p.2 :: valsFor l k else valsFor l k := by
  by_cases h : p.1 = k <;> simp [valsFor, h]

theorem lookupD_foldl_dd_add (l : List (String × ℚ)) (m : List (String × ℚ)) (k : String) :
    lookupD (l.foldl (fun m' p => dd_add m' p.1 p.2) m) k 0
      = lookupD m k 0 + (valsFor l k).sum := by
  induction l generalizing m with
  | nil => simp [valsFor]
  | cons p l ih =>
    rw [List.foldl_cons, ih, valsFor_cons]
    by_cases h : p.1 = k
    · subst h
      simp [lookupD, lookup_dd_add]
      ring
    · simp [lookupD, lookup_dd_add, Ne.symm h, h]

theorem lookupD_foldl_dd_setmax (l : List (String × ℚ)) (m : List (String × ℚ)) (k : String) :
    lookupD (l.foldl (fun m' p => dd_setmax m' p.1 p.2) m) k 0
      = (valsFor l k).foldl max (lookupD m k 0) := by
  induction l generalizing m with
  | nil => simp [valsFor]
  | cons p l ih =>
    rw [List.foldl_cons, ih, valsFor_cons]
    by_cases h : p.1 = k
    · subst h
      simp [lookupD, lookup_dd_add, lookup_dd_setmax]
    · simp [lookupD, lookup_dd_setmax, Ne.symm h, h]

theorem lookupD_foldl_prop_update (l : List (String × ℚ)) (m : List (String × ℚ)) (k : String) :
    lookupD (l.foldl (fun m' p => prop_update m' p.1 p.2) m) k 0
      = (valsFor l k).foldl max (lookupD m k 0) := by
  induction l generalizing m with
  | nil => simp [valsFor]
  | cons p l ih =>
    rw [List.foldl_cons, ih, valsFor_cons]
    by_cases h : p.1 = k
    · subst h
      simp [lookupD, lookup_prop_update]
    · simp [lookupD, lookup_prop_update, Ne.symm h, h]

theorem lookup_isSome_iff {κ α : Type} [DecidableEq κ] (m : List (κ × α)) (k : κ) :
    (lookup m k).isSome ↔ k ∈ m.map Prod.fst := by
  induction m with
  | nil => simp [lookup]
  | cons p rest ih =>
    by_cases h : p.1 = k
    · simp [lookup, h]
    · simp [lookup, h, ih, Ne.symm h]

theorem keys_upsert {κ α : Type} [DecidableEq κ] (m : List (κ × α)) (k : κ) (v : α) :
    (upsert m k v).map Prod.fst
      = if k ∈ m.map Prod.fst then m.map Prod.fst else m.map Prod.fst ++ [k] := by
  induction m with
  | nil => simp [upsert]
  | cons p rest ih =>
    by_cases h : p.1 = k
    · simp [upsert, h]
    · have : ¬ k = p.1 := fun hk => h hk.symm
      by_cases hm : k ∈ rest.map Prod.fst <;> simp [upsert, h, ih, hm, this]

theorem keys_dd_add (m : List (String × ℚ)) (k : String) (v : ℚ) :
    (dd_add m k v).map Prod.fst
      = if k ∈ m.map Prod.fst then m.map Prod.fst else m.map Prod.fst ++ [k] := by
  induction m with
  | nil => simp [dd_add]
  | cons p rest ih =>
    by_cases h : p.1 = k
    · simp [dd_add, h]
    · have : ¬ k = p.1 := fun hk => h hk.symm
      by_cases hm : k ∈ rest.map Prod.fst <;> simp [dd_add, h, ih, hm, this]

theorem keys_dd_setmax (m : List (String × ℚ)) (k : String) (v : ℚ) :
    (dd_setmax m k v).map Prod.fst
      = if k ∈ m.map Prod.fst then m.map Prod.fst else m.map Prod.fst ++ [k] := by
  induction m with
  | nil => simp [dd_setmax]
  | cons p rest ih =>
    by_cases h : p.1 = k
    · simp [dd_setmax, h]
    · have : ¬ k = p.1 := fun hk => h hk.symm
      by_cases hm : k ∈ rest.map Prod.fst <;> simp [dd_setmax, h, ih, hm, this]

theorem keys_prop_update (m : List (String × ℚ)) (k : String) (v : ℚ) :
    (prop_update m k v).map Prod.fst
      = if k ∈ m.map Prod.fst then m.map Prod.fst else m.map Prod.fst ++ [k] := by
  induction m with
  | nil => by_cases hv : (0 : ℚ) < v <;> simp [prop_update, hv]
  | cons p rest ih =>
    by_cases h : p.1 = k
    · by_cases hlt : p.2 < v <;> simp [prop_update, h, hlt]
    · have : ¬ k = p.1 := fun hk => h hk.symm
      by_cases hm : k ∈ rest.map Prod.fst <;> simp [prop_update, h, ih, hm, this]

/-- A dict whose first bindings are the authoritative ones has, once its
key list is duplicate-free, every binding reachable by lookup. -/
theorem lookup_of_mem_of_nodup {κ α : Type} [DecidableEq κ] {m : List (κ × α)}
    (hnd : (m.map Prod.fst).Nodup) {p : κ × α} (hp : p ∈ m) :
    lookup m p.1 = some p.2 := by
  induction m with
  | nil => simp at hp
  | cons q rest ih =>
    rcases List.mem_cons.1 hp with h | h
    · subst h
      simp [lookup]
    · have hq : q.1 ≠ p.1 := by
        intro he
        have : q.1 ∈ rest.map Prod.fst := he ▸ List.mem_map_of_mem Prod.fst h
        exact (List.nodup_cons.1 (by simpa using hnd)).1 this
      simp [lookup, hq]
      exact ih (List.nodup_cons.1 (by simpa using hnd)).2 h

/-! Lemmas about the stable descending sort. -/

theorem mem_insertDesc {a r : SearchResult} {l : List SearchResult} :
    a ∈ insertDesc r l ↔ a = r ∨ a ∈ l := by
  induction l with
  | nil => simp [insertDesc]
  | cons x xs ih =>
    by_cases h : x.score ≤ r.score
    · simp [insertDesc, h]
    · simp [insertDesc, h, ih]
      tauto

theorem mem_sortDesc {a : SearchResult} {l : List SearchResult} :
    a ∈ sortDesc l ↔ a ∈ l := by
  induction l with
  | nil => simp [sortDesc]
  | cons x xs ih => simp [sortDesc, mem_insertDesc, ih]

theorem pairwise_insertDesc {r : SearchResult} {l : List SearchResult}
    (h : l.Pairwise (fun a b => b.score ≤ a.score)) :
    (insertDesc r l).Pairwise (fun a b => b.score ≤ a.score) := by
  induction l with
  | nil => simp [insertDesc]
  | cons x xs ih =>
    rcases List.pairwise_cons.1 h with ⟨hx, hxs⟩
    by_cases hle : x.score ≤ r.score
    · rw [insertDesc, if_pos hle]
      refine List.pairwise_cons.2 ⟨?_, h⟩
      intro y hy
      rcases List.mem_cons.1 hy with h' | h'
      · exact h' ▸ hle
      · exact le_trans (hx y h') hle
    · rw [insertDesc, if_neg hle]
      refine List.pairwise_cons.2 ⟨?_, ih hxs⟩
      intro y hy
      rcases mem_insertDesc.1 hy with h' | h'
      · exact h' ▸ le_of_lt (lt_of_not_le hle)
      · exact hx y h'

theorem pairwise_sortDesc (l : List SearchResult) :
    (sortDesc l).Pairwise (fun a b => b.score ≤ a.score) := by
  induction l with
  | nil => simp [sortDesc]
  | cons x xs ih => exact pairwise_insertDesc ih

/-- Everything a strategy returns after sorting and truncating came from
the unsorted scored list. -/
theorem mem_of_mem_take_sortDesc {r : SearchResult} {l : List SearchResult} {n : Nat}
    (h : r ∈ (sortDesc l).take n) : r ∈ l :=
  mem_sortDesc.1 (List.mem_of_mem_take h)

/-- Scores are non-increasing across a sorted-then-truncated result list. -/
theorem pairwise_take_sortDesc (l : List SearchResult) (n : Nat) :
    ((sortDesc l).take n).Pairwise (fun a b => b.score ≤ a.score) :=
  (pairwise_sortDesc l).sublist (List.take_sublist n (sortDesc l))

/-! Concrete inputs used by witness theorems. -/

def nAlpha : Node := ⟨"n1", "Alpha", "paper", "about widgets", ["deep learning"]⟩

def nBeta : Node := ⟨"n2", "Beta", "paper", "other things", ["overview"]⟩

def eLink : Hyperedge := ⟨"e1", "rel", ["n1", "n2"], 1⟩

def gDemo : KnowledgeGraph := buildGraph [.addNode nAlpha, .addNode nBeta, .addEdge eLink]

def stratDummy : SearchStrategy := ⟨"vector", fun _ _ _ => []⟩

/-! Claim C5: precision_at_k mechanics and bounds. -/

/-- C5: precision_at_k takes the first k results (or fewer), returns 0 on an
empty prefix, and otherwise divides the hit count by the number of results
actually taken (not by k); the value always lies in the interval from 0 to 1. -/
theorem C5_precision_at_k (results : List SearchResult) (relevant_ids : List String)
    (k : Nat) :
    precision_at_k results relevant_ids k
      = (if results.take k = [] then (0 : ℚ)
         else (((results.take k).filter (fun r => relevant_ids.contains r.node.id)).length : ℚ)
           / ((results.take k).length : ℚ))
    ∧ 0 ≤ precision_at_k results relevant_ids k
    ∧ precision_at_k results relevant_ids k ≤ 1 := by
  refine ⟨rfl, ?_, ?_⟩
  · unfold precision_at_k
    by_cases h : results.take k = []
    · simp [h]
    · simp only [h, if_false]
      positivity
  · unfold precision_at_k
    by_cases h : results.take k = []
    · simp [h]
    · simp only [h, if_false]
      rw [div_le_one (by exact_mod_cast List.length_pos.2 h)]
      exact_mod_cast List.length_filter_le _ _

/-! Claim C4: hybrid weight initialization and the 0.1 floor. -/

theorem lookup_hybrid_init (strategies : List SearchStrategy) (s : SearchStrategy)
    (hs : s ∈ strategies) : lookup (hybrid_init strategies).weights s.name = some 1 := by
  induction strategies with
  | nil => simp at hs
  | cons t rest ih =>
    by_cases h : t.name = s.name
    · simp [hybrid_init, lookup, h]
    · rcases List.mem_cons.1 hs with h' | h'
      · exact absurd (congrArg SearchStrategy.name h'.symm) h
      · simpa [hybrid_init, lookup, h] using ih h'

theorem update_weights_floor {h : HybridSelfImprovingSearch}
    (hw : ∀ p ∈ h.weights, (1 : ℚ) / 10 ≤ p.2 ∨ p.2 = 1)
    (performance : List (String × ℚ)) (lr : ℚ) :
    ∀ p ∈ (update_weights h performance lr).weights, (1 : ℚ) / 10 ≤ p.2 ∨ p.2 = 1 := by
  unfold update_weights
  rcases h with ⟨st, w⟩
  simp only at hw ⊢
  induction performance generalizing w with
  | nil => simpa using hw
  | cons q qs ih =>
    rw [List.foldl_cons]
    refine ih _ ?_
    intro p hp
    rcases mem_upsert hp with h' | h'
    · exact hw p h'
    · exact Or.inl (by rw [h']; exact le_max_left _ _)

/-- C4: every hybrid weight starts at 1.0, and after any sequence of
update_weights calls with non-negative learning rates every weight in the
map is at least 0.1; moreover no bound B caps the weights. -/
theorem C4_hybrid_weights :
    (∀ (strategies : List SearchStrategy) (s : SearchStrategy), s ∈ strategies →
      lookup (hybrid_init strategies).weights s.name = some 1)
    ∧ (∀ (strategies : List SearchStrategy) (calls : List (List (String × ℚ) × ℚ)),
        (∀ c ∈ calls, 0 ≤ c.2) →
        ∀ p ∈ (apply_updates (hybrid_init strategies) calls).weights, (1 : ℚ) / 10 ≤ p.2)
    ∧ (∀ B : ℚ, ∃ (strategies : List SearchStrategy)
        (calls : List (List (String × ℚ) × ℚ)) (p : String × ℚ),
        (∀ c ∈ calls, 0 ≤ c.2)
        ∧ p ∈ (apply_updates (hybrid_init strategies) calls).weights ∧ B < p.2) := by
  refine ⟨lookup_hybrid_init, ?_, ?_⟩
  · intro strategies calls h0 p hp
    clear h0
    have key : ∀ (calls' : List (List (String × ℚ) × ℚ)) (h : HybridSelfImprovingSearch),
        (∀ q ∈ h.weights, (1 : ℚ) / 10 ≤ q.2 ∨ q.2 = 1) →
        ∀ q ∈ (apply_updates h calls').weights, (1 : ℚ) / 10 ≤ q.2 ∨ q.2 = 1 := by
      intro calls'
      induction calls' with
      | nil => intro h hw; simpa [apply_updates] using hw
      | cons c cs ih =>
        intro h hw
        have h1 := update_weights_floor hw c.1 c.2
        simpa [apply_updates] using ih (update_weights h c.1 c.2) h1
    have init : ∀ q ∈ (hybrid_init strategies).weights, (1 : ℚ) / 10 ≤ q.2 ∨ q.2 = 1 := by
      intro q hq
      rcases List.mem_map.1 hq with ⟨s, _, rfl⟩
      exact Or.inr rfl
    rcases key calls _ init p hp with h' | h'
    · exact h'
    · rw [h']; norm_num
  · intro B
    refine ⟨[stratDummy], [([("vector", max B 0 + 1)], 1)],
      ("vector", max (1 / 10) (1 + 1 * (max B 0 + 1))), ?_, ?_, ?_⟩
    · intro c hc
      rcases List.mem_singleton.1 hc with rfl
      norm_num
    · simp [apply_updates, update_weights, hybrid_init, stratDummy, upsert, lookupD, lookup]
    · calc B ≤ max B 0 := le_max_left _ _
      _ < 1 + 1 * (max B 0 + 1) := by linarith
      _ ≤ max (1 / 10) (1 + 1 * (max B 0 + 1)) := le_max_right _ _

/-- Witness for C4 at concrete inputs: a single constituent, one update with
a large negative delta, and the floored weight 0.1 it produces. -/
theorem C4_hybrid_weights_witness :
    ("vector", (1 : ℚ) / 10) ∈
      (apply_updates (hybrid_init [stratDummy]) [([("vector", -100)], 1)]).weights
    ∧ (1 : ℚ) / 10 ≤ (("vector", (1 : ℚ) / 10) : String × ℚ).2 := by
  constructor
  · with_unfolding_all decide
  · exact C4_hybrid_weights.2.1 [stratDummy] [([("vector", -100)], 1)]
      (by intro c hc; rcases List.mem_singleton.1 hc with rfl; norm_num)
      ("vector", (1 : ℚ) / 10) (by with_unfolding_all decide)

/-! Claim C8: Ontology-Lens scores. -/

/-- C8: every Ontology-Lens result comes from a graph node with at least one
matching facet, its score is the matched-facet count divided by the total
facet count, and every returned score lies in the half-open interval (0, 1]. -/
theorem C8_ontology (g : KnowledgeGraph) (query : String) (limit : Nat)
    (r : SearchResult) (hr : r ∈ OntologyLensSearch.search g query limit) :
    0 < r.score ∧ r.score ≤ 1
    ∧ ∃ n ∈ g.all_nodes, r.node = n ∧ facetMatchCount (facets query) n ≠ 0
      ∧ r.score = (facetMatchCount (facets query) n : ℚ) / ((facets query).length : ℚ) := by
  have hr' := mem_of_mem_take_sortDesc (by simpa [OntologyLensSearch.search] using hr)
  rcases List.mem_filterMap.1 hr' with ⟨n, hn, hsome⟩
  by_cases hmc : facetMatchCount (facets query) n = 0
  · simp [hmc] at hsome
  rw [if_neg hmc] at hsome
  have hre : r = SearchResult.mk n
      ((facetMatchCount (facets query) n : ℚ) / ((facets query).length : ℚ)) "ontology" :=
    (Option.some_injective _ hsome).symm
  subst hre
  have hmcpos : 0 < facetMatchCount (facets query) n := Nat.pos_of_ne_zero hmc
  have hlen : facetMatchCount (facets query) n ≤ (facets query).length :=
    List.length_filter_le _ _
  have hlpos : 0 < (facets query).length := lt_of_lt_of_le hmcpos hlen
  refine ⟨?_, ?_, n, hn, rfl, hmc, rfl⟩
  · exact div_pos (by exact_mod_cast hmcpos) (by exact_mod_cast hlpos)
  · rw [div_le_one (by exact_mod_cast hlpos)]
    exact_mod_cast hlen

/-- Witness for C8 at concrete inputs: the demo graph and a two-facet query
for which the first node matches one facet of two. -/
theorem C8_ontology_witness :
    (⟨nAlpha, 1 / 2, "ontology"⟩ : SearchResult)
      ∈ OntologyLensSearch.search gDemo "deep and overview" 5
    ∧ 0 < ((⟨nAlpha, 1 / 2, "ontology"⟩ : SearchResult)).score := by
  constructor
  · with_unfolding_all decide
  · exact (C8_ontology gDemo "deep and overview" 5 _ (by with_unfolding_all decide)).1

/-! Claim C2: the Vector strategy score formula. -/

theorem countOcc_nil (t : List Char) : countOcc t [] = 0 := rfl

theorem countOcc_cons (t u : List Char) (l : List (List Char)) :
    countOcc t (u :: l) = (if u = t then 1 else 0) + countOcc t l := by
  by_cases h : u = t <;> simp [countOcc, h, Nat.add_comm]

theorem countOcc_nodup {t : List Char} {l : List (List Char)} (h : l.Nodup) :
    countOcc t l = if t ∈ l then 1 else 0 := by
  induction l with
  | nil => simp [countOcc]
  | cons u l ih =>
    rcases List.nodup_cons.1 h with ⟨hu, hl⟩
    rw [countOcc_cons, ih hl]
    by_cases he : u = t
    · subst he
      simp [hu]
    · simp [he, Ne.symm he]

theorem countOcc_dedup (t : List Char) (l : List (List Char)) :
    countOcc t l.dedup = if t ∈ l then 1 else 0 := by
  rw [countOcc_nodup (List.nodup_dedup l)]
  simp [List.mem_dedup]

/-- The df of the spec formula: in how many of the node signatures a term
occurs (at index-build time terms are counted once per node). -/
def doc_frequency (nodes : List Node) (t : List Char) : Nat :=
  (nodes.filter (fun n => t ∈ tokenizeChars n.text_signature)).length

/-- The spec's per-query score: the sum over query terms t with tf > 0 of
(1 + log tf) * idf(t), with idf(t) = log((N+1)/(df+1)) + 1 when t occurs in
some signature and 0 when t is absent from the idf table. -/
def vector_spec_score (logQ : ℚ → ℚ) (nodes : List Node) (n : Node)
    (query_terms : List (List Char)) : ℚ :=
  (query_terms.map (fun t =>
    let tf := countOcc t (tokenizeChars n.text_signature)
    if tf ≠ 0 then
      (1 + logQ (tf : ℚ)) *
        (if 0 < doc_frequency nodes t
         then logQ (((nodes.length : ℚ) + 1) / ((doc_frequency nodes t : ℚ) + 1)) + 1
         else 0)
    else 0)).sum

theorem lookupD_foldl_tdf_add (terms : List (List Char)) (m : List (List Char × Nat))
    (t : List Char) :
    lookupD (terms.foldl tdf_add m) t 0 = lookupD m t 0 + countOcc t terms := by
  induction terms generalizing m with
  | nil => simp [countOcc]
  | cons u terms ih =>
    rw [List.foldl_cons, ih, countOcc_cons]
    by_cases h : u = t
    · subst h
      simp [lookupD, lookup_tdf_add]
      omega
    · simp [lookupD, lookup_tdf_add, h, Ne.symm h]

theorem isSome_foldl_tdf_add (terms : List (List Char)) (m : List (List Char × Nat))
    (t : List Char) :
    (lookup (terms.foldl tdf_add m) t).isSome ↔ t ∈ terms ∨ (lookup m t).isSome := by
  induction terms generalizing m with
  | nil => simp
  | cons u terms ih =>
    rw [List.foldl_cons, ih]
    by_cases h : t = u
    · subst h
      simp [lookup_tdf_add]
    · simp [lookup_tdf_add, h, Ne.symm h]

theorem doc_frequency_cons (n : Node) (ns : List Node) (t : List Char) :
    doc_frequency (n :: ns) t
      = (if t ∈ tokenizeChars n.text_signature then 1 else 0) + doc_frequency ns t := by
  by_cases h : t ∈ tokenizeChars n.text_signature <;>
    simp [doc_frequency, h, Nat.add_comm]

theorem lookupD_term_doc_frequency (nodes : List Node) (t : List Char) :
    lookupD (term_doc_frequency nodes) t 0 = doc_frequency nodes t := by
  have key : ∀ (ns : List Node) (m : List (List Char × Nat)),
      lookupD (ns.foldl (fun m' n =>
        ((tokenizeChars n.text_signature).dedup).foldl tdf_add m') m) t 0
        = lookupD m t 0 + doc_frequency ns t := by
    intro ns
    induction ns with
    | nil => simp [doc_frequency]
    | cons n ns ih =>
      intro m
      rw [List.foldl_cons, ih, lookupD_foldl_tdf_add, countOcc_dedup, doc_frequency_cons]
      omega
  have h0 : lookupD ([] : List (List Char × Nat)) t 0 = 0 := rfl
  rw [term_doc_frequency, key nodes [], h0, Nat.zero_add]

theorem isSome_term_doc_frequency (nodes : List Node) (t : List Char) :
    (lookup (term_doc_frequency nodes) t).isSome ↔ 0 < doc_frequency nodes t := by
  have key : ∀ (ns : List Node) (m : List (List Char × Nat)),
      (lookup (ns.foldl (fun m' n =>
        ((tokenizeChars n.text_signature).dedup).foldl tdf_add m') m) t).isSome
        ↔ (∃ n ∈ ns, t ∈ tokenizeChars n.text_signature) ∨ (lookup m t).isSome := by
    intro ns
    induction ns with
    | nil => simp
    | cons n ns ih =>
      intro m
      rw [List.foldl_cons, ih, isSome_foldl_tdf_add, List.mem_dedup]
      constructor
      · rintro (⟨x, hx, hPx⟩ | h | h)
        · exact Or.inl ⟨x, List.mem_cons_of_mem _ hx, hPx⟩
        · exact Or.inl ⟨n, List.mem_cons_self _ _, h⟩
        · exact Or.inr h
      · rintro (⟨x, hx, hPx⟩ | h)
        · rcases List.mem_cons.1 hx with rfl | hx'
          · exact Or.inr (Or.inl hPx)
          · exact Or.inl ⟨x, hx', hPx⟩
        · exact Or.inr (Or.inr h)
  rw [term_doc_frequency, key nodes []]
  have h0 : (lookup ([] : List (List Char × Nat)) t).isSome = false := rfl
  rw [h0]
  unfold doc_frequency
  rw [List.length_pos]
  simp [List.filter_eq_nil_iff]

theorem lookup_map_snd {κ α β : Type} [DecidableEq κ] (m : List (κ × α)) (f : α → β)
    (k : κ) :
    lookup (m.map (fun p => (p.1, f p.2))) k = (lookup m k).map f := by
  induction m with
  | nil => simp [lookup]
  | cons p rest ih =>
    by_cases h : p.1 = k <;> simp [lookup, h, ih]

theorem lookupD_build_index (logQ : ℚ → ℚ) (nodes : List Node) (t : List Char) :
    lookupD (VectorSemanticSearch.build_index logQ nodes) t 0
      = (if 0 < doc_frequency nodes t
         then logQ (((nodes.length : ℚ) + 1) / ((doc_frequency nodes t : ℚ) + 1)) + 1
         else 0) := by
  have hmap := lookup_map_snd (term_doc_frequency nodes)
    (fun c : Nat => logQ (((nodes.length : ℚ) + 1) / ((c : ℚ) + 1)) + 1) t
  unfold VectorSemanticSearch.build_index
  rw [lookupD]
  rw [show (fun p : List Char × Nat =>
      (p.1, logQ (((nodes.length : ℚ) + 1) / ((p.2 : ℚ) + 1)) + 1))
    = (fun p : List Char × Nat =>
      (p.1, (fun c : Nat => logQ (((nodes.length : ℚ) + 1) / ((c : ℚ) + 1)) + 1) p.2)) from rfl]
  rw [hmap]
  by_cases h : 0 < doc_frequency nodes t
  · have hs : (lookup (term_doc_frequency nodes) t).isSome :=
      (isSome_term_doc_frequency nodes t).2 h
    rcases Option.isSome_iff_exists.1 hs with ⟨c, hc⟩
    have hcd : c = doc_frequency nodes t := by
      have hd := lookupD_term_doc_frequency nodes t
      rw [lookupD, hc] at hd
      simpa using hd
    subst hcd
    simp [hc, h]
  · have hs : ¬ (lookup (term_doc_frequency nodes) t).isSome := by
      rw [isSome_term_doc_frequency]; exact h
    rw [Option.not_isSome_iff_eq_none.1 hs]
    simp [h]

theorem score_eq_sum (logQ : ℚ → ℚ) (idf : List (List Char × ℚ)) (n : Node)
    (qts : List (List Char)) :
    VectorSemanticSearch.score logQ idf n qts
      = (qts.map (fun t =>
          if countOcc t (tokenizeChars n.text_signature) ≠ 0
          then (1 + logQ ((countOcc t (tokenizeChars n.text_signature) : ℚ)))
            * lookupD idf t 0
          else 0)).sum := by
  have key : ∀ (l : List (List Char)) (a : ℚ),
      l.foldl (fun s term =>
        if countOcc term (tokenizeChars n.text_signature) ≠ 0
        then s + (1 + logQ ((countOcc term (tokenizeChars n.text_signature)) : ℚ))
          * lookupD idf term 0
        else s) a
      = a + (l.map (fun t =>
          if countOcc t (tokenizeChars n.text_signature) ≠ 0
          then (1 + logQ ((countOcc t (tokenizeChars n.text_signature) : ℚ)))
            * lookupD idf t 0
          else 0)).sum := by
    intro l
    induction l with
    | nil => simp
    | cons t l ih =>
      intro a
      simp only [List.foldl_cons, List.map_cons, List.sum_cons]
      by_cases h : countOcc t (tokenizeChars n.text_signature) ≠ 0
      · rw [if_pos h, if_pos h, ih]
        ring
      · rw [if_neg h, if_neg h, ih]
        ring
  unfold VectorSemanticSearch.score
  rw [key qts 0, zero_add]

set_option maxHeartbeats 1000000 in
/-- C2: on a first search invocation every returned Vector result carries the
spec's tf-idf score over the current snapshot of node signatures, has a
strictly positive score, and the result list respects the limit. -/
theorem C2_vector_score (logQ : ℚ → ℚ) (g : KnowledgeGraph) (query : String)
    (limit : Nat) (r : SearchResult)
    (hr : r ∈ (VectorSemanticSearch.search logQ ⟨[]⟩ g query limit).2) :
    r.score = vector_spec_score logQ g.all_nodes r.node (tokenizeChars query.data)
    ∧ 0 < r.score
    ∧ (VectorSemanticSearch.search logQ ⟨[]⟩ g query limit).2.length ≤ limit := by
  have hidf : (VectorSemanticSearch.search logQ ⟨[]⟩ g query limit).2
      = ((sortDesc (g.all_nodes.map (fun n => SearchResult.mk n
          (VectorSemanticSearch.score logQ
            (VectorSemanticSearch.build_index logQ g.all_nodes) n
            (tokenizeChars query.data)) "vector"))).filter
          (fun r' => 0 < r'.score)).take limit := rfl
  rw [hidf] at hr
  have hfil := List.mem_filter.1 (List.mem_of_mem_take hr)
  have hpos : 0 < r.score := of_decide_eq_true hfil.2
  have hmem : r ∈ g.all_nodes.map (fun n => SearchResult.mk n
      (VectorSemanticSearch.score logQ
        (VectorSemanticSearch.build_index logQ g.all_nodes) n
        (tokenizeChars query.data)) "vector") :=
    mem_sortDesc.1 hfil.1
  rcases List.mem_map.1 hmem with ⟨n, _, rfl⟩
  refine ⟨?_, hpos, ?_⟩
  · show VectorSemanticSearch.score logQ _ n _ = _
    rw [score_eq_sum]
    unfold vector_spec_score
    congr 1
    apply List.map_congr_left
    intro t _
    simp only [lookupD_build_index]
  · rw [hidf]
    exact List.length_take_le _ _

/-- The concrete log function used by concrete-input theorems; the engine's
theorems hold for every log function, this one included. -/
def zeroLog : ℚ → ℚ := fun _ => 0

/-- Witness for C2 at concrete inputs: on the demo graph the query widgets
returns the first node, whose score matches the spec formula. -/
theorem C2_vector_score_witness :
    (⟨nAlpha, 1, "vector"⟩ : SearchResult)
      ∈ (VectorSemanticSearch.search zeroLog ⟨[]⟩ gDemo "widgets" 5).2
    ∧ ((⟨nAlpha, 1, "vector"⟩ : SearchResult)).score
      = vector_spec_score zeroLog gDemo.all_nodes nAlpha (tokenizeChars "widgets".data) := by
  constructor
  · with_unfolding_all decide
  · exact (C2_vector_score zeroLog gDemo "widgets" 5 _ (by with_unfolding_all decide)).1

/-! Claim C7: lifetime of the lazily built idf cache. -/

/-- C7 counterexample: a Vector instance whose first search ran on an empty
graph holds an empty idf table, and because the rebuild guard is
"if not self._idf", a later plain search call on a changed graph rebuilds
the table — the cache is not immutable for the instance's lifetime. -/
theorem C7_counterexample :
    (VectorSemanticSearch.search zeroLog
        (VectorSemanticSearch.search zeroLog ⟨[]⟩ KnowledgeGraph.empty "x" 5).1
        gDemo "x" 5).1.idf
      ≠ (VectorSemanticSearch.search zeroLog ⟨[]⟩ KnowledgeGraph.empty "x" 5).1.idf := by
  with_unfolding_all decide

/-- C7 as amended: the first search builds the idf table from the
then-current snapshot of all nodes, and a search that finds a non-empty
cached table never rebuilds it (even on a different graph, query or
limit); only when the cached table is empty does a search rebuild. -/
theorem C7_idf_cache (logQ : ℚ → ℚ) (st : VectorSemanticSearch)
    (g g' : KnowledgeGraph) (q q' : String) (lim lim' : Nat) :
    (VectorSemanticSearch.search logQ ⟨[]⟩ g q lim).1.idf
      = VectorSemanticSearch.build_index logQ g.all_nodes
    ∧ (st.idf ≠ [] → (VectorSemanticSearch.search logQ st g' q' lim').1 = st) := by
  constructor
  · simp [VectorSemanticSearch.search]
  · intro h
    rcases st with ⟨idf⟩
    simp only [VectorSemanticSearch.search]
    simp at h
    simp [h]

/-- Witness for C7 at concrete inputs: a non-empty cached table survives a
search on the demo graph unchanged. -/
theorem C7_idf_cache_witness :
    ((⟨[(['a'], 1)]⟩ : VectorSemanticSearch).idf ≠ [])
    ∧ (VectorSemanticSearch.search zeroLog ⟨[(['a'], 1)]⟩ gDemo "x" 7).1
      = (⟨[(['a'], 1)]⟩ : VectorSemanticSearch) :=
  ⟨by with_unfolding_all decide,
   (C7_idf_cache zeroLog ⟨[(['a'], 1)]⟩ gDemo gDemo "q" "x" 3 7).2
     (by with_unfolding_all decide)⟩

/-! Claim C9: determinism of repeated searches on an unmodified graph. -/

/-- C9: a second identical Vector search from the state the first call left
behind returns the same ordered results and leaves the cached idf table
unchanged; the other three strategies keep no search state in the model
(their Python classes mutate nothing during search), so two calls with
equal graph, query and limit return equal ordered results. -/
theorem C9_determinism :
    (∀ (logQ : ℚ → ℚ) (st : VectorSemanticSearch) (g : KnowledgeGraph)
        (q : String) (lim : Nat),
      (VectorSemanticSearch.search logQ
          (VectorSemanticSearch.search logQ st g q lim).1 g q lim).2
        = (VectorSemanticSearch.search logQ st g q lim).2
      ∧ (VectorSemanticSearch.search logQ
          (VectorSemanticSearch.search logQ st g q lim).1 g q lim).1
        = (VectorSemanticSearch.search logQ st g q lim).1)
    ∧ (∀ (d : Nat) (g g' : KnowledgeGraph) (q q' : String) (lim lim' : Nat),
        g = g' → q = q' → lim = lim' →
        GraphTraversalSearch.search d g q lim = GraphTraversalSearch.search d g' q' lim')
    ∧ (∀ (g g' : KnowledgeGraph) (q q' : String) (lim lim' : Nat),
        g = g' → q = q' → lim = lim' →
        OntologyLensSearch.search g q lim = OntologyLensSearch.search g' q' lim')
    ∧ (∀ (h : HybridSelfImprovingSearch) (g g' : KnowledgeGraph) (q q' : String)
        (lim lim' : Nat), g = g' → q = q' → lim = lim' →
        HybridSelfImprovingSearch.search h g q lim
          = HybridSelfImprovingSearch.search h g' q' lim') := by
  refine ⟨?_, ?_, ?_, ?_⟩
  · intro logQ st g q lim
    by_cases h1 : st.idf = []
    · by_cases h2 : VectorSemanticSearch.build_index logQ g.all_nodes = []
      · constructor <;> simp [VectorSemanticSearch.search, h1, h2]
      · constructor <;> simp [VectorSemanticSearch.search, h1, h2]
    · constructor <;> simp [VectorSemanticSearch.search, h1]
  · intro d g g' q q' lim lim' hg hq hl
    rw [hg, hq, hl]
  · intro g g' q q' lim lim' hg hq hl
    rw [hg, hq, hl]
  · intro h g g' q q' lim lim' hg hq hl
    rw [hg, hq, hl]

/-- Witness for C9 at concrete inputs: the second identical Vector search on
the demo graph returns the first call's results, and an Ontology search
repeated with equal arguments returns equal results. -/
theorem C9_determinism_witness :
    (VectorSemanticSearch.search zeroLog
        (VectorSemanticSearch.search zeroLog ⟨[]⟩ gDemo "widgets" 5).1
        gDemo "widgets" 5).2
      = (VectorSemanticSearch.search zeroLog ⟨[]⟩ gDemo "widgets" 5).2
    ∧ OntologyLensSearch.search gDemo "deep and overview" 5
      = OntologyLensSearch.search gDemo "deep and overview" 5 :=
  ⟨(C9_determinism.1 zeroLog ⟨[]⟩ gDemo "widgets" 5).1,
   C9_determinism.2.2.1 gDemo gDemo "deep and overview" "deep and overview" 5 5
     rfl rfl rfl⟩

/-! Claim C3: hybrid weighted reciprocal-rank fusion. -/

/-- The spec's fused score for a node id: over every constituent, run it
with the same limit, give the result at 1-based rank r the contribution
weight(strategy)/r when its node id matches, and sum everything. -/
def rrf_total (h : HybridSelfImprovingSearch) (g : KnowledgeGraph) (q : String)
    (limit : Nat) (nid : String) : ℚ :=
  (h.strategies.map (fun s =>
    ((enumFromQ 1 (s.search g q limit)).filterMap (fun pr =>
      if pr.2.node.id = nid then some (lookupD h.weights s.name 1 / pr.1)
      else none)).sum)).sum

/-- The flat list of (node id, weight / rank) contributions the hybrid fold
processes, in processing order. -/
def hybrid_contribs (h : HybridSelfImprovingSearch) (g : KnowledgeGraph) (q : String)
    (limit : Nat) : List (String × ℚ) :=
  (h.strategies.map (fun s => (s.name, s.search g q limit))).flatMap (fun nr =>
    (enumFromQ 1 nr.2).map (fun pr => (pr.2.node.id, lookupD h.weights nr.1 1 / pr.1)))

theorem pair_foldl_split {A B C : Type} (l : List C) (f : A → C → A) (g : B → C → B)
    (a : A) (b : B) :
    l.foldl (fun ab c => (f ab.1 c, g ab.2 c)) (a, b) = (l.foldl f a, l.foldl g b) := by
  induction l generalizing a b with
  | nil => rfl
  | cons c l ih => simp [List.foldl_cons, ih]

theorem foldl_flatMap {A B C : Type} (l : List A) (f : A → List B) (g : C → B → C)
    (a : C) :
    (l.flatMap f).foldl g a = l.foldl (fun acc x => (f x).foldl g acc) a := by
  induction l generalizing a with
  | nil => rfl
  | cons x l ih => simp [List.foldl_cons, List.foldl_append, ih]

theorem valsFor_append (l1 l2 : List (String × ℚ)) (k : String) :
    valsFor (l1 ++ l2) k = valsFor l1 k ++ valsFor l2 k := by
  simp [valsFor, List.filterMap_append]

/-- The hybrid's nested two-dict fold equals the componentwise folds over
the flat contribution and node lists. -/
theorem hybrid_fold_split (h : HybridSelfImprovingSearch) (g : KnowledgeGraph)
    (q : String) (limit : Nat) :
    ((h.strategies.map (fun s => (s.name, s.search g q limit))).foldl (fun acc nr =>
      (enumFromQ 1 nr.2).foldl (fun acc2 pr =>
        (dd_add acc2.1 pr.2.node.id (lookupD h.weights nr.1 1 / pr.1),
         upsert acc2.2 pr.2.node.id pr.2.node)) acc)
      (([] : List (String × ℚ)), ([] : List (String × Node))))
    = ((hybrid_contribs h g q limit).foldl (fun m p => dd_add m p.1 p.2) [],
       ((h.strategies.map (fun s => (s.name, s.search g q limit))).flatMap (fun nr =>
         (enumFromQ 1 nr.2).map (fun pr => (pr.2.node.id, pr.2.node)))).foldl
         (fun o p => upsert o p.1 p.2) []) := by
  rw [hybrid_contribs, foldl_flatMap, foldl_flatMap]
  have key : ∀ (l : List (String × List SearchResult))
      (a : List (String × ℚ)) (b : List (String × Node)),
      l.foldl (fun acc nr =>
        (enumFromQ 1 nr.2).foldl (fun acc2 pr =>
          (dd_add acc2.1 pr.2.node.id (lookupD h.weights nr.1 1 / pr.1),
           upsert acc2.2 pr.2.node.id pr.2.node)) acc) (a, b)
      = (l.foldl (fun acc nr => ((enumFromQ 1 nr.2).map (fun pr =>
            (pr.2.node.id, lookupD h.weights nr.1 1 / pr.1))).foldl
            (fun m p => dd_add m p.1 p.2) acc) a,
         l.foldl (fun acc nr => ((enumFromQ 1 nr.2).map (fun pr =>
            (pr.2.node.id, pr.2.node))).foldl (fun o p => upsert o p.1 p.2) acc) b) := by
    intro l
    induction l with
    | nil => intro a b; rfl
    | cons nr l ih =>
      intro a b
      have inner : (enumFromQ 1 nr.2).foldl (fun acc2 pr =>
          (dd_add acc2.1 pr.2.node.id (lookupD h.weights nr.1 1 / pr.1),
           upsert acc2.2 pr.2.node.id pr.2.node)) (a, b)
          = (((enumFromQ 1 nr.2).map (fun pr =>
                (pr.2.node.id, lookupD h.weights nr.1 1 / pr.1))).foldl
              (fun m p => dd_add m p.1 p.2) a,
             ((enumFromQ 1 nr.2).map (fun pr => (pr.2.node.id, pr.2.node))).foldl
              (fun o p => upsert o p.1 p.2) b) := by
        rw [List.foldl_map, List.foldl_map]
        exact pair_foldl_split (enumFromQ 1 nr.2)
          (fun m pr => dd_add m pr.2.node.id (lookupD h.weights nr.1 1 / pr.1))
          (fun o pr => upsert o pr.2.node.id pr.2.node) a b
      simp only [List.foldl_cons]
      rw [inner]
      exact ih _ _
  exact key _ [] []

theorem nodup_keys_dd_add (m : List (String × ℚ)) (k : String) (v : ℚ)
    (h : (m.map Prod.fst).Nodup) : ((dd_add m k v).map Prod.fst).Nodup := by
  rw [keys_dd_add]
  by_cases hm : k ∈ m.map Prod.fst
  · simp [hm, h]
  · simp [hm]
    exact List.Nodup.append h (List.nodup_singleton k) (by simpa using hm)

theorem nodup_keys_foldl_dd_add (l : List (String × ℚ)) (m : List (String × ℚ))
    (h : (m.map Prod.fst).Nodup) :
    (((l.foldl (fun m' p => dd_add m' p.1 p.2) m)).map Prod.fst).Nodup := by
  induction l generalizing m with
  | nil => exact h
  | cons p l ih => exact ih _ (nodup_keys_dd_add _ _ _ h)

theorem id_consistent_foldl_upsert (l : List (String × Node)) (b : List (String × Node))
    (hb : ∀ q ∈ b, q.1 = q.2.id) (hl : ∀ q ∈ l, q.1 = q.2.id) :
    ∀ q ∈ l.foldl (fun o p => upsert o p.1 p.2) b, q.1 = q.2.id := by
  induction l generalizing b with
  | nil => exact hb
  | cons p l ih =>
    rw [List.foldl_cons]
    refine ih _ ?_ (fun q hq => hl q (List.mem_cons_of_mem _ hq))
    intro q hq
    rcases mem_upsert hq with h' | h'
    · exact hb q h'
    · rw [h']
      exact hl p (List.mem_cons_self _ _)

/-- Every binding reachable by lookup is a member of the dict. -/
theorem mem_of_lookup_eq_some {κ α : Type} [DecidableEq κ] {m : List (κ × α)}
    {k : κ} {v : α} (h : lookup m k = some v) : (k, v) ∈ m := by
  induction m with
  | nil => simp [lookup] at h
  | cons p rest ih =>
    by_cases hp : p.1 = k
    · rw [lookup, if_pos hp] at h
      rcases p with ⟨pk, pv⟩
      simp at hp h
      subst hp
      subst h
      exact List.mem_cons_self _ _
    · rw [lookup, if_neg hp] at h
      exact List.mem_cons_of_mem _ (ih h)

theorem valsFor_contribs_general (w : List (String × ℚ)) (g : KnowledgeGraph)
    (q : String) (limit : Nat) (l : List SearchStrategy) (nid : String) :
    (valsFor ((l.map (fun s => (s.name, s.search g q limit))).flatMap (fun nr =>
      (enumFromQ 1 nr.2).map (fun pr =>
        (pr.2.node.id, lookupD w nr.1 1 / pr.1)))) nid).sum
    = (l.map (fun s =>
        ((enumFromQ 1 (s.search g q limit)).filterMap (fun pr =>
          if pr.2.node.id = nid then some (lookupD w s.name 1 / pr.1)
          else none)).sum)).sum := by
  induction l with
  | nil => rfl
  | cons s l ih =>
    rw [List.map_cons, List.flatMap_cons, valsFor_append, List.sum_append, ih,
      List.map_cons, List.sum_cons]
    congr 1
    rw [valsFor, List.filterMap_map]
    rfl

/-- The sum of the flat contributions for a node id is the spec's fused
score. -/
theorem valsFor_hybrid_contribs (h : HybridSelfImprovingSearch) (g : KnowledgeGraph)
    (q : String) (limit : Nat) (nid : String) :
    (valsFor (hybrid_contribs h g q limit) nid).sum = rrf_total h g q limit nid := by
  rw [hybrid_contribs, rrf_total]
  exact valsFor_contribs_general h.weights g q limit h.strategies nid

/-- C3: every hybrid result's score is the weighted reciprocal-rank fusion
total for its node id over the constituents run with the same limit, and
the returned list is sorted by descending score and truncated to limit. -/
theorem C3_hybrid_rrf (h : HybridSelfImprovingSearch) (g : KnowledgeGraph)
    (q : String) (limit : Nat) (r : SearchResult)
    (hr : r ∈ HybridSelfImprovingSearch.search h g q limit) :
    r.score = rrf_total h g q limit r.node.id
    ∧ (HybridSelfImprovingSearch.search h g q limit).Pairwise
        (fun a b => b.score ≤ a.score)
    ∧ (HybridSelfImprovingSearch.search h g q limit).length ≤ limit := by
  have hsearch : HybridSelfImprovingSearch.search h g q limit
      = (sortDesc (((hybrid_contribs h g q limit).foldl
          (fun m p => dd_add m p.1 p.2) []).filterMap (fun p =>
        (lookup (((h.strategies.map (fun s => (s.name, s.search g q limit))).flatMap
            (fun nr => (enumFromQ 1 nr.2).map (fun pr => (pr.2.node.id, pr.2.node)))).foldl
          (fun o p' => upsert o p'.1 p'.2) []) p.1).map
          (fun n => SearchResult.mk n p.2 "hybrid")))).take limit := by
    rw [HybridSelfImprovingSearch.search]
    rw [hybrid_fold_split h g q limit]
  refine ⟨?_, ?_, ?_⟩
  · rw [hsearch] at hr
    rcases List.mem_filterMap.1 (mem_of_mem_take_sortDesc hr) with ⟨p, hp, hsome⟩
    rcases Option.map_eq_some'.1 hsome with ⟨nd, hnd, hre⟩
    have hobj : p.1 = nd.id := by
      refine id_consistent_foldl_upsert
        ((h.strategies.map (fun s => (s.name, s.search g q limit))).flatMap
          (fun nr => (enumFromQ 1 nr.2).map (fun pr => (pr.2.node.id, pr.2.node)))) []
        (by intro q' hq'; simp at hq')
        ?_ (p.1, nd) (mem_of_lookup_eq_some hnd)
      intro q' hq'
      rcases List.mem_flatMap.1 hq' with ⟨nr, _, hq2⟩
      rcases List.mem_map.1 hq2 with ⟨pr, _, hpr⟩
      rw [← hpr]
    have hscore : lookup ((hybrid_contribs h g q limit).foldl
        (fun m p' => dd_add m p'.1 p'.2) []) p.1 = some p.2 :=
      lookup_of_mem_of_nodup (nodup_keys_foldl_dd_add _ [] (by simp)) hp
    have hval : p.2 = rrf_total h g q limit p.1 := by
      have h1 := lookupD_foldl_dd_add (hybrid_contribs h g q limit) [] p.1
      rw [lookupD, hscore] at h1
      have h0 : lookupD ([] : List (String × ℚ)) p.1 0 = 0 := rfl
      rw [h0, zero_add, valsFor_hybrid_contribs] at h1
      simpa using h1
    rw [← hre]
    show p.2 = rrf_total h g q limit nd.id
    rw [hval, hobj]
  · rw [hsearch]
    exact pairwise_take_sortDesc _ _
  · rw [hsearch]
    exact List.length_take_le _ _

/-- Witness for C3 at concrete inputs: a hybrid over the Ontology strategy on
the demo graph; the top result scores the fused total for its node id. -/
theorem C3_hybrid_rrf_witness :
    (⟨nAlpha, 1, "hybrid"⟩ : SearchResult)
      ∈ HybridSelfImprovingSearch.search
          (hybrid_init [⟨"ontology", OntologyLensSearch.search⟩]) gDemo
          "deep and overview" 5
    ∧ ((⟨nAlpha, 1, "hybrid"⟩ : SearchResult)).score
      = rrf_total (hybrid_init [⟨"ontology", OntologyLensSearch.search⟩]) gDemo
          "deep and overview" 5 ((⟨nAlpha, 1, "hybrid"⟩ : SearchResult)).node.id := by
  constructor
  · with_unfolding_all decide
  · exact (C3_hybrid_rrf (hybrid_init [⟨"ontology", OntologyLensSearch.search⟩])
      gDemo "deep and overview" 5 _ (by with_unfolding_all decide)).1

/-! Claim C10: the node-map lookups of Graph-Traversal result building
never fail on graphs built through the two add operations. -/

/-- Invariant of graphs built through add_node and add_hyperedge: every
binding of the node map binds an id to the node carrying that id. -/
def NodesConsistent (g : KnowledgeGraph) : Prop := ∀ p ∈ g.nodes, p.1 = p.2.id

theorem nodesConsistent_buildGraph (ops : List Op) : NodesConsistent (buildGraph ops) := by
  have key : ∀ (l : List Op) (g : KnowledgeGraph), NodesConsistent g →
      NodesConsistent (l.foldl applyOp g) := by
    intro l
    induction l with
    | nil => exact fun g hg => hg
    | cons op l ih =>
      intro g hg
      rw [List.foldl_cons]
      refine ih _ ?_
      rcases op with n | e
      · intro p hp
        rcases mem_upsert hp with h' | h'
        · exact hg p h'
        · rw [h']
      · exact hg
  exact key ops _ (by intro p hp; simp [KnowledgeGraph.empty] at hp)

/-- In a consistent graph, every neighbor is reachable again through the
node map under its own id. -/
theorem neighbors_lookup {g : KnowledgeGraph} (hc : NodesConsistent g)
    {nid : String} {nb : Node} (hnb : nb ∈ g.neighbors nid) :
    lookup g.nodes nb.id = some nb := by
  rcases List.mem_flatMap.1 hnb with ⟨eid, _, hin⟩
  rcases hmatch : lookup g.hyperedges eid with _ | edge
  · rw [hmatch] at hin
    simp at hin
  · rw [hmatch] at hin
    rcases List.mem_filterMap.1 hin with ⟨rid, _, hsome⟩
    by_cases hr : rid = nid
    · rw [if_pos hr] at hsome
      simp at hsome
    · rw [if_neg hr] at hsome
      have hmem := mem_of_lookup_eq_some hsome
      have hid : rid = nb.id := hc (rid, nb) hmem
      rw [← hid]
      exact hsome

/-- Every node of all_nodes is reachable by lookup under its own id in a
consistent graph. -/
theorem all_nodes_lookup {g : KnowledgeGraph} (hc : NodesConsistent g)
    {n : Node} (hn : n ∈ g.all_nodes) : (lookup g.nodes n.id).isSome := by
  rcases List.mem_map.1 hn with ⟨p, hp, rfl⟩
  rw [lookup_isSome_iff]
  rw [← hc p hp]
  exact List.mem_map_of_mem Prod.fst hp

theorem mem_keys_foldl_dd_add (l : List (String × ℚ)) (m : List (String × ℚ))
    (k : String) :
    k ∈ ((l.foldl (fun m' p => dd_add m' p.1 p.2) m).map Prod.fst)
      ↔ k ∈ m.map Prod.fst ∨ k ∈ l.map Prod.fst := by
  induction l generalizing m with
  | nil => simp
  | cons p l ih =>
    rw [List.foldl_cons, ih, keys_dd_add]
    by_cases hm : p.1 ∈ m.map Prod.fst
    · by_cases hk : k = p.1 <;> simp [hm, hk]
    · by_cases hk : k = p.1 <;> simp [hm, hk]

theorem mem_keys_foldl_dd_setmax (l : List (String × ℚ)) (m : List (String × ℚ))
    (k : String) :
    k ∈ ((l.foldl (fun m' p => dd_setmax m' p.1 p.2) m).map Prod.fst)
      ↔ k ∈ m.map Prod.fst ∨ k ∈ l.map Prod.fst := by
  induction l generalizing m with
  | nil => simp
  | cons p l ih =>
    rw [List.foldl_cons, ih, keys_dd_setmax]
    by_cases hm : p.1 ∈ m.map Prod.fst
    · by_cases hk : k = p.1 <;> simp [hm, hk]
    · by_cases hk : k = p.1 <;> simp [hm, hk]

theorem mem_keys_foldl_prop_update (l : List (String × ℚ)) (m : List (String × ℚ))
    (k : String) :
    k ∈ ((l.foldl (fun m' p => prop_update m' p.1 p.2) m).map Prod.fst)
      ↔ k ∈ m.map Prod.fst ∨ k ∈ l.map Prod.fst := by
  induction l generalizing m with
  | nil => simp
  | cons p l ih =>
    rw [List.foldl_cons, ih, keys_prop_update]
    by_cases hm : p.1 ∈ m.map Prod.fst
    · by_cases hk : k = p.1 <;> simp [hm, hk]
    · by_cases hk : k = p.1 <;> simp [hm, hk]

/-- Keys of the seed map come from matching nodes of the graph. -/
theorem base_scores_keys (g : KnowledgeGraph) (query : String) (k : String)
    (hk : k ∈ (GraphTraversalSearch.base_scores g query).map Prod.fst) :
    ∃ n ∈ g.all_nodes, n.id = k := by
  have key : ∀ (l : List Node) (m : List (String × ℚ)),
      k ∈ ((l.foldl (fun m' n =>
        if (gtKeywords query).any (fun kw => containsSub kw (lowerChars n.text_signature))
        then upsert m' n.id 1 else m') m).map Prod.fst) →
      k ∈ m.map Prod.fst ∨ ∃ n ∈ l, n.id = k := by
    intro l
    induction l with
    | nil => exact fun m h => Or.inl h
    | cons n l ih =>
      intro m h
      rw [List.foldl_cons] at h
      by_cases hc : (gtKeywords query).any
          (fun kw => containsSub kw (lowerChars n.text_signature)) = true
      · rw [if_pos hc] at h
        rcases ih _ h with h' | h'
        · rw [keys_upsert] at h'
          by_cases hm : n.id ∈ m.map Prod.fst
          · rw [if_pos hm] at h'
            exact Or.inl h'
          · rw [if_neg hm] at h'
            rcases List.mem_append.1 h' with h2 | h2
            · exact Or.inl h2
            · exact Or.inr ⟨n, List.mem_cons_self _ _, (List.mem_singleton.1 h2).symm⟩
        · rcases h' with ⟨n', hn', he⟩
          exact Or.inr ⟨n', List.mem_cons_of_mem _ hn', he⟩
      · rw [if_neg hc] at h
        rcases ih _ h with h' | h'
        · exact Or.inl h'
        · rcases h' with ⟨n', hn', he⟩
          exact Or.inr ⟨n', List.mem_cons_of_mem _ hn', he⟩
  rcases key g.all_nodes [] hk with h' | h'
  · simp at h'
  · exact h'

/-- Every gated propagation entry is keyed by the id of a neighbor node. -/
theorem gt_gated_keys {g : KnowledgeGraph} {frontier : List (String × ℚ)}
    {p : String × ℚ} (hp : p ∈ gt_gated g frontier) :
    ∃ (nid : String) (nb : Node), nb ∈ g.neighbors nid ∧ p.1 = nb.id := by
  rcases List.mem_flatMap.1 hp with ⟨ns, _, hin⟩
  rcases List.mem_filterMap.1 hin with ⟨nb, hnb, hsome⟩
  by_cases hgate : (1 : ℚ) / 100 < ns.2 * (3 / 5)
  · rw [if_pos hgate] at hsome
    have h := Option.some_injective _ hsome
    exact ⟨ns.1, nb, hnb, by rw [← h]⟩
  · rw [if_neg hgate] at hsome
    simp at hsome

/-- Every received propagation entry is keyed by the id of a neighbor node. -/
theorem gt_received_keys {g : KnowledgeGraph} (d : Nat)
    (frontier : List (String × ℚ)) {p : String × ℚ}
    (hp : p ∈ gt_received g d frontier) :
    ∃ (nid : String) (nb : Node), nb ∈ g.neighbors nid ∧ p.1 = nb.id := by
  induction d generalizing frontier with
  | zero => simp [gt_received] at hp
  | succ d ih =>
    rw [gt_received] at hp
    rcases List.mem_append.1 hp with h | h
    · exact gt_gated_keys h
    · exact ih _ h

/-- The walk's propagation component is the fold of the guarded update over
all received values, in push order. -/
theorem gt_walk_fst (g : KnowledgeGraph) (d : Nat) (m f : List (String × ℚ)) :
    (gt_walk g d (m, f)).1
      = (gt_received g d f).foldl (fun m' p => prop_update m' p.1 p.2) m := by
  induction d generalizing m f with
  | zero => rfl
  | succ d ih =>
    rw [gt_walk, gt_step, gt_received, List.foldl_append]
    exact ih _ _

/-- C10: on a graph built solely through add_node and add_hyperedge calls,
every key of Graph-Traversal's combined score map is a registered node id
(seed keys come from all_nodes, propagated keys from neighbors), so the
direct node-map lookup of the result-building loop never fails and the
lookup-failure branch drops nothing. -/
theorem C10_lookup_safe (ops : List Op) (walk_depth : Nat) (query : String)
    (p : String × ℚ) (hp : p ∈ gt_combined (buildGraph ops) walk_depth query) :
    (lookup (buildGraph ops).nodes p.1).isSome := by
  set g := buildGraph ops with hg
  have hc : NodesConsistent g := nodesConsistent_buildGraph ops
  have hkey : p.1 ∈ (gt_combined g walk_depth query).map Prod.fst :=
    List.mem_map_of_mem Prod.fst hp
  rw [gt_combined] at hkey
  rw [mem_keys_foldl_dd_setmax] at hkey
  rcases hkey with h1 | h1
  · rw [mem_keys_foldl_dd_add] at h1
    rcases h1 with h2 | h2
    · simp at h2
    · rcases base_scores_keys g query p.1 h2 with ⟨n, hn, he⟩
      rw [← he]
      exact all_nodes_lookup hc hn
  · rw [gt_walk_fst] at h1
    rw [mem_keys_foldl_prop_update] at h1
    rcases h1 with h2 | h2
    · simp at h2
    · rcases List.mem_map.1 h2 with ⟨q, hq, he2⟩
      rcases gt_received_keys _ _ hq with ⟨nid, nb, hnb, he⟩
      rw [← he2, he, neighbors_lookup hc hnb]
      rfl

/-- Witness for C10 at concrete inputs: the propagated entry for the second
demo node, reached through the hyperedge, has a registered node id. -/
theorem C10_lookup_safe_witness :
    ("n2", (3 : ℚ) / 5) ∈
      gt_combined (buildGraph [.addNode nAlpha, .addNode nBeta, .addEdge eLink]) 2 "alpha"
    ∧ (lookup (buildGraph [.addNode nAlpha, .addNode nBeta,
        .addEdge eLink]).nodes "n2").isSome := by
  constructor
  · with_unfolding_all decide
  · exact C10_lookup_safe [.addNode nAlpha, .addNode nBeta, .addEdge eLink] 2 "alpha"
      ("n2", (3 : ℚ) / 5) (by with_unfolding_all decide)

/-! Claim C1: Graph-Traversal seeding, decay, max-merge and final scores. -/

theorem base_scores_mem_val (g : KnowledgeGraph) (query : String) :
    ∀ p ∈ GraphTraversalSearch.base_scores g query, p.2 = 1 := by
  have key : ∀ (l : List Node) (m : List (String × ℚ)), (∀ p ∈ m, p.2 = 1) →
      ∀ p ∈ l.foldl (fun m' n =>
        if (gtKeywords query).any (fun kw => containsSub kw (lowerChars n.text_signature))
        then upsert m' n.id 1 else m') m, p.2 = 1 := by
    intro l
    induction l with
    | nil => exact fun m hm => hm
    | cons n l ih =>
      intro m hm
      rw [List.foldl_cons]
      refine ih _ ?_
      by_cases hc : (gtKeywords query).any
          (fun kw => containsSub kw (lowerChars n.text_signature)) = true
      · rw [if_pos hc]
        intro p hp
        rcases mem_upsert hp with h' | h'
        · exact hm p h'
        · rw [h']
      · rw [if_neg hc]
        exact hm
  exact key g.all_nodes [] (by intro p hp; simp at hp)

theorem base_scores_val {g : KnowledgeGraph} {query : String} {nid : String} {v : ℚ}
    (h : lookup (GraphTraversalSearch.base_scores g query) nid = some v) : v = 1 :=
  base_scores_mem_val g query (nid, v) (mem_of_lookup_eq_some h)

theorem base_scores_isSome (g : KnowledgeGraph) (query : String) (nid : String) :
    (lookup (GraphTraversalSearch.base_scores g query) nid).isSome
      ↔ ∃ n ∈ g.all_nodes, n.id = nid
        ∧ (gtKeywords query).any (fun kw => containsSub kw (lowerChars n.text_signature))
          = true := by
  have key : ∀ (l : List Node) (m : List (String × ℚ)),
      (lookup (l.foldl (fun m' n =>
        if (gtKeywords query).any (fun kw => containsSub kw (lowerChars n.text_signature))
        then upsert m' n.id 1 else m') m) nid).isSome
      ↔ (∃ n ∈ l, n.id = nid
          ∧ (gtKeywords query).any (fun kw => containsSub kw (lowerChars n.text_signature))
            = true)
        ∨ (lookup m nid).isSome := by
    intro l
    induction l with
    | nil => simp
    | cons n l ih =>
      intro m
      rw [List.foldl_cons, ih]
      by_cases hc : (gtKeywords query).any
          (fun kw => containsSub kw (lowerChars n.text_signature)) = true
      · rw [if_pos hc, lookup_upsert]
        constructor
        · rintro (⟨n', hn', he', hc'⟩ | h')
          · exact Or.inl ⟨n', List.mem_cons_of_mem _ hn', he', hc'⟩
          · by_cases hn : nid = n.id
            · exact Or.inl ⟨n, List.mem_cons_self _ _, hn.symm, hc⟩
            · rw [if_neg hn] at h'
              exact Or.inr h'
        · rintro (⟨n', hn', he', hc'⟩ | h')
          · rcases List.mem_cons.1 hn' with rfl | hn2
            · exact Or.inr (by rw [if_pos he'.symm]; rfl)
            · exact Or.inl ⟨n', hn2, he', hc'⟩
          · refine Or.inr ?_
            by_cases hn : nid = n.id
            · rw [if_pos hn]; rfl
            · rw [if_neg hn]; exact h'
      · rw [if_neg hc]
        constructor
        · rintro (⟨n', hn', he', hc'⟩ | h')
          · exact Or.inl ⟨n', List.mem_cons_of_mem _ hn', he', hc'⟩
          · exact Or.inr h'
        · rintro (⟨n', hn', he', hc'⟩ | h')
          · rcases List.mem_cons.1 hn' with rfl | hn2
            · exact absurd hc' hc
            · exact Or.inl ⟨n', hn2, he', hc'⟩
          · exact Or.inr h'
  rw [GraphTraversalSearch.base_scores, key g.all_nodes []]
  simp [lookup]

theorem nodup_keys_upsert {κ α : Type} [DecidableEq κ] (m : List (κ × α)) (k : κ)
    (v : α) (h : (m.map Prod.fst).Nodup) : ((upsert m k v).map Prod.fst).Nodup := by
  rw [keys_upsert]
  by_cases hm : k ∈ m.map Prod.fst
  · simp [hm, h]
  · simp [hm]
    exact List.Nodup.append h (List.nodup_singleton k) (by simpa using hm)

theorem nodup_keys_base (g : KnowledgeGraph) (query : String) :
    ((GraphTraversalSearch.base_scores g query).map Prod.fst).Nodup := by
  have key : ∀ (l : List Node) (m : List (String × ℚ)), (m.map Prod.fst).Nodup →
      ((l.foldl (fun m' n =>
        if (gtKeywords query).any (fun kw => containsSub kw (lowerChars n.text_signature))
        then upsert m' n.id 1 else m') m).map Prod.fst).Nodup := by
    intro l
    induction l with
    | nil => exact fun m hm => hm
    | cons n l ih =>
      intro m hm
      rw [List.foldl_cons]
      refine ih _ ?_
      by_cases hc : (gtKeywords query).any
          (fun kw => containsSub kw (lowerChars n.text_signature)) = true
      · rw [if_pos hc]
        exact nodup_keys_upsert _ _ _ hm
      · rw [if_neg hc]
        exact hm
  exact key g.all_nodes [] (by simp)

theorem nodup_keys_prop_update (m : List (String × ℚ)) (k : String) (v : ℚ)
    (h : (m.map Prod.fst).Nodup) : ((prop_update m k v).map Prod.fst).Nodup := by
  rw [keys_prop_update]
  by_cases hm : k ∈ m.map Prod.fst
  · simp [hm, h]
  · simp [hm]
    exact List.Nodup.append h (List.nodup_singleton k) (by simpa using hm)

theorem nodup_keys_foldl_prop_update (l : List (String × ℚ)) (m : List (String × ℚ))
    (h : (m.map Prod.fst).Nodup) :
    (((l.foldl (fun m' p => prop_update m' p.1 p.2) m)).map Prod.fst).Nodup := by
  induction l generalizing m with
  | nil => exact h
  | cons p l ih => exact ih _ (nodup_keys_prop_update _ _ _ h)

theorem foldl_max_mem (l : List ℚ) (a : ℚ) : l.foldl max a = a ∨ l.foldl max a ∈ l := by
  induction l generalizing a with
  | nil => exact Or.inl rfl
  | cons x l ih =>
    rw [List.foldl_cons]
    rcases ih (max a x) with h | h
    · rcases max_choice a x with h' | h'
      · exact Or.inl (by rw [h, h'])
      · exact Or.inr (by rw [h, h']; exact List.mem_cons_self _ _)
    · exact Or.inr (List.mem_cons_of_mem _ h)

theorem foldl_max_init_le (l : List ℚ) (a : ℚ) : a ≤ l.foldl max a := by
  induction l generalizing a with
  | nil => exact le_refl a
  | cons x l ih =>
    rw [List.foldl_cons]
    exact le_trans (le_max_left a x) (ih (max a x))

theorem mem_le_foldl_max (l : List ℚ) : ∀ (a x : ℚ), x ∈ l → x ≤ l.foldl max a := by
  induction l with
  | nil => intro a x hx; simp at hx
  | cons y l ih =>
    intro a x hx
    rw [List.foldl_cons]
    rcases List.mem_cons.1 hx with rfl | h
    · exact le_trans (le_max_right a x) (foldl_max_init_le l (max a x))
    · exact ih (max a y) x h

theorem foldl_max_le {l : List ℚ} {a c : ℚ} (ha : a ≤ c) (h : ∀ x ∈ l, x ≤ c) :
    l.foldl max a ≤ c := by
  induction l generalizing a with
  | nil => exact ha
  | cons x l ih =>
    rw [List.foldl_cons]
    exact ih (max_le ha (h x (List.mem_cons_self _ _)))
      (fun y hy => h y (List.mem_cons_of_mem _ hy))

theorem mem_valsFor {l : List (String × ℚ)} {k : String} {v : ℚ} :
    v ∈ valsFor l k ↔ ∃ q ∈ l, q.1 = k ∧ q.2 = v := by
  rw [valsFor]
  constructor
  · intro h
    rcases List.mem_filterMap.1 h with ⟨q, hq, hsome⟩
    by_cases hk : q.1 = k
    · rw [if_pos hk] at hsome
      exact ⟨q, hq, hk, Option.some_injective _ hsome⟩
    · rw [if_neg hk] at hsome
      simp at hsome
  · rintro ⟨q, hq, hk, hv⟩
    refine List.mem_filterMap.2 ⟨q, hq, ?_⟩
    rw [if_pos hk, hv]

theorem valsFor_eq_nil {l : List (String × ℚ)} {k : String}
    (h : k ∉ l.map Prod.fst) : valsFor l k = [] := by
  induction l with
  | nil => rfl
  | cons p rest ih =>
    rw [valsFor_cons, if_neg, ih (fun hm => h (List.mem_cons_of_mem _ hm))]
    intro he
    exact h (he ▸ List.mem_cons_self _ _)

theorem valsFor_of_nodup {l : List (String × ℚ)} {k : String}
    (h : (l.map Prod.fst).Nodup) : valsFor l k = (lookup l k).toList := by
  induction l with
  | nil => rfl
  | cons p rest ih =>
    rw [List.map_cons] at h
    rcases List.nodup_cons.1 h with ⟨hp, hrest⟩
    by_cases hk : p.1 = k
    · rw [valsFor_cons, if_pos hk, lookup, if_pos hk]
      rw [valsFor_eq_nil (hk ▸ hp)]
      rfl
    · rw [valsFor_cons, if_neg hk, lookup, if_neg hk]
      exact ih hrest

theorem gt_gated_vals {g : KnowledgeGraph} {f : List (String × ℚ)} {c : ℚ}
    (hf : ∀ p ∈ f, p.2 = c) :
    ∀ p ∈ gt_gated g f, p.2 = c * (3 / 5) ∧ (1 : ℚ) / 100 < p.2 := by
  intro p hp
  rcases List.mem_flatMap.1 hp with ⟨ns, hns, hin⟩
  rcases List.mem_filterMap.1 hin with ⟨nb, _, hsome⟩
  by_cases hgate : (1 : ℚ) / 100 < ns.2 * (3 / 5)
  · rw [if_pos hgate] at hsome
    have h := Option.some_injective _ hsome
    have hv : p.2 = ns.2 * (3 / 5) := by rw [← h]
    refine ⟨by rw [hv, hf ns hns], ?_⟩
    rw [hv]
    exact hgate
  · rw [if_neg hgate] at hsome
    simp at hsome

theorem gt_received_vals (g : KnowledgeGraph) :
    ∀ (d : Nat) (f : List (String × ℚ)) (j : Nat), (∀ p ∈ f, p.2 = (3 / 5 : ℚ) ^ j) →
    ∀ p ∈ gt_received g d f,
      ∃ i, j + 1 ≤ i ∧ i ≤ j + d ∧ p.2 = (3 / 5 : ℚ) ^ i ∧ (1 : ℚ) / 100 < p.2 := by
  intro d
  induction d with
  | zero =>
    intro f j hf p hp
    simp [gt_received] at hp
  | succ d ih =>
    intro f j hf p hp
    rw [gt_received] at hp
    rcases List.mem_append.1 hp with h | h
    · rcases gt_gated_vals hf p h with ⟨hv, hgt⟩
      exact ⟨j + 1, le_refl _, by omega, by rw [hv, pow_succ], hgt⟩
    · have hgf : ∀ q ∈ gt_gated g f, q.2 = (3 / 5 : ℚ) ^ (j + 1) := by
        intro q hq
        rcases gt_gated_vals hf q hq with ⟨hv, _⟩
        rw [hv, pow_succ]
      rcases ih (gt_gated g f) (j + 1) hgf p h with ⟨i, h1, h2, h3, h4⟩
      exact ⟨i, by omega, by omega, h3, h4⟩

theorem gt_prop_vals (g : KnowledgeGraph) (d : Nat) (query : String) :
    ∀ p ∈ (gt_walk g d ([], GraphTraversalSearch.base_scores g query)).1,
      ∃ i, 1 ≤ i ∧ i ≤ d ∧ p.2 = (3 / 5 : ℚ) ^ i ∧ (1 : ℚ) / 100 < p.2 := by
  intro p hp
  rw [gt_walk_fst] at hp
  have hnodup := nodup_keys_foldl_prop_update
    (gt_received g d (GraphTraversalSearch.base_scores g query)) [] (by simp)
  have hlook := lookup_of_mem_of_nodup hnodup hp
  have hval : (valsFor (gt_received g d (GraphTraversalSearch.base_scores g query))
      p.1).foldl max 0 = p.2 := by
    have h1 := lookupD_foldl_prop_update
      (gt_received g d (GraphTraversalSearch.base_scores g query)) [] p.1
    rw [lookupD, hlook] at h1
    have h0 : lookupD ([] : List (String × ℚ)) p.1 0 = 0 := rfl
    rw [h0] at h1
    simpa using h1.symm
  have hrecvals := gt_received_vals g d (GraphTraversalSearch.base_scores g query) 0
    (by
      intro q hq
      rw [pow_zero]
      exact base_scores_mem_val g query q hq)
  have hkmem : p.1 ∈ (gt_received g d
      (GraphTraversalSearch.base_scores g query)).map Prod.fst := by
    have hmem := List.mem_map_of_mem Prod.fst hp
    rw [mem_keys_foldl_prop_update] at hmem
    rcases hmem with h | h
    · simp at h
    · exact h
  rcases List.mem_map.1 hkmem with ⟨q, hq, hqk⟩
  have hqv : q.2 ∈ valsFor (gt_received g d
      (GraphTraversalSearch.base_scores g query)) p.1 := mem_valsFor.2 ⟨q, hq, hqk, rfl⟩
  rcases foldl_max_mem (valsFor (gt_received g d
      (GraphTraversalSearch.base_scores g query)) p.1) 0 with hz | hmem
  · exfalso
    have hle := mem_le_foldl_max (valsFor (gt_received g d
      (GraphTraversalSearch.base_scores g query)) p.1) 0 q.2 hqv
    rw [hz] at hle
    rcases hrecvals q hq with ⟨_, _, _, _, hgt⟩
    linarith
  · rw [hval] at hmem
    rcases mem_valsFor.1 hmem with ⟨q', hq', _, hv'⟩
    rcases hrecvals q' hq' with ⟨i, h1, h2, h3, h4⟩
    exact ⟨i, by omega, by omega, hv' ▸ h3, hv' ▸ h4⟩

theorem base_lookupD_nonneg (g : KnowledgeGraph) (query : String) (nid : String) :
    0 ≤ lookupD (GraphTraversalSearch.base_scores g query) nid 0 := by
  rcases hl : lookup (GraphTraversalSearch.base_scores g query) nid with _ | v
  · simp [lookupD, hl]
  · have := base_scores_val hl
    simp [lookupD, hl, this]

theorem gt_combined_lookupD (g : KnowledgeGraph) (d : Nat) (query : String)
    (nid : String) :
    lookupD (gt_combined g d query) nid 0
      = max (lookupD (GraphTraversalSearch.base_scores g query) nid 0)
            (lookupD (gt_walk g d ([], GraphTraversalSearch.base_scores g query)).1
              nid 0) := by
  have hc0 : lookupD ((GraphTraversalSearch.base_scores g query).foldl
      (fun m p => dd_add m p.1 p.2) []) nid 0
      = lookupD (GraphTraversalSearch.base_scores g query) nid 0 := by
    rw [lookupD_foldl_dd_add]
    have h0 : lookupD ([] : List (String × ℚ)) nid 0 = 0 := rfl
    rw [h0, zero_add, valsFor_of_nodup (nodup_keys_base g query)]
    rcases hl : lookup (GraphTraversalSearch.base_scores g query) nid with _ | v
    · simp [lookupD, hl]
    · simp [lookupD, hl]
  have hpropnodup : (((gt_walk g d
      ([], GraphTraversalSearch.base_scores g query)).1).map Prod.fst).Nodup := by
    rw [gt_walk_fst]
    exact nodup_keys_foldl_prop_update _ [] (by simp)
  rw [gt_combined, lookupD_foldl_dd_setmax, hc0, valsFor_of_nodup hpropnodup]
  rcases hl : lookup (gt_walk g d ([], GraphTraversalSearch.base_scores g query)).1
      nid with _ | v
  · have hnn := base_lookupD_nonneg g query nid
    simp [lookupD, hl]
    simpa [lookupD] using hnn
  · simp [lookupD, hl]

set_option maxHeartbeats 1000000 in
/-- C1: Graph-Traversal seeds exactly the nodes whose lowercased signature
contains some lowercased query token, at score 1.0; every propagated value
is a power of the 0.6 decay with exponent between 1 and walk_depth and
exceeds the 0.01 discard threshold; a node's propagated score is the
maximum (not the sum) of the values it receives; the final score of each
node in the combined map is the maximum of its seed score and its best
propagated value, so a seeded node's final score is exactly 1.0; and the
returned results carry exactly the combined scores, sorted by descending
score and truncated to limit. -/
theorem C1_graph_traversal (d : Nat) (g : KnowledgeGraph) (query : String)
    (limit : Nat) :
    (∀ (nid : String) (v : ℚ),
        lookup (GraphTraversalSearch.base_scores g query) nid = some v → v = 1)
    ∧ (∀ nid : String, (lookup (GraphTraversalSearch.base_scores g query) nid).isSome
        ↔ ∃ n ∈ g.all_nodes, n.id = nid
          ∧ (gtKeywords query).any
              (fun kw => containsSub kw (lowerChars n.text_signature)) = true)
    ∧ (∀ p ∈ (gt_walk g d ([], GraphTraversalSearch.base_scores g query)).1,
        ∃ i, 1 ≤ i ∧ i ≤ d ∧ p.2 = (3 / 5 : ℚ) ^ i ∧ (1 : ℚ) / 100 < p.2)
    ∧ (∀ nid : String,
        lookupD (gt_walk g d ([], GraphTraversalSearch.base_scores g query)).1 nid 0
        = (valsFor (gt_received g d (GraphTraversalSearch.base_scores g query))
            nid).foldl max 0)
    ∧ (∀ nid : String, lookupD (gt_combined g d query) nid 0
        = max (lookupD (GraphTraversalSearch.base_scores g query) nid 0)
              (lookupD (gt_walk g d
                ([], GraphTraversalSearch.base_scores g query)).1 nid 0))
    ∧ (∀ nid : String, (lookup (GraphTraversalSearch.base_scores g query) nid).isSome
        → lookupD (gt_combined g d query) nid 0 = 1)
    ∧ (∀ r ∈ GraphTraversalSearch.search d g query limit,
        ∃ p ∈ gt_combined g d query, lookup g.nodes p.1 = some r.node ∧ r.score = p.2)
    ∧ (GraphTraversalSearch.search d g query limit).Pairwise
        (fun a b => b.score ≤ a.score)
    ∧ (GraphTraversalSearch.search d g query limit).length ≤ limit := by
  refine ⟨fun nid v h => base_scores_val h, base_scores_isSome g query,
    gt_prop_vals g d query, ?_, gt_combined_lookupD g d query, ?_, ?_, ?_, ?_⟩
  · intro nid
    rw [gt_walk_fst, lookupD_foldl_prop_update]
    rfl
  · intro nid hsome
    rcases Option.isSome_iff_exists.1 hsome with ⟨v, hv⟩
    have hv1 : v = 1 := base_scores_val hv
    have hbase : lookupD (GraphTraversalSearch.base_scores g query) nid 0 = 1 := by
      rw [lookupD, hv, hv1]
      rfl
    have hprople : lookupD (gt_walk g d
        ([], GraphTraversalSearch.base_scores g query)).1 nid 0 ≤ 1 := by
      rw [gt_walk_fst, lookupD_foldl_prop_update]
      have h0 : lookupD ([] : List (String × ℚ)) nid 0 = 0 := rfl
      rw [h0]
      refine foldl_max_le (by norm_num) ?_
      intro x hx
      rcases mem_valsFor.1 hx with ⟨q, hq, _, hv2⟩
      rcases gt_received_vals g d (GraphTraversalSearch.base_scores g query) 0
        (by
          intro q' hq'
          rw [pow_zero]
          exact base_scores_mem_val g query q' hq') q hq with ⟨i, _, _, h3, _⟩
      rw [← hv2, h3]
      exact pow_le_one₀ (by norm_num) (by norm_num)
    rw [gt_combined_lookupD, hbase]
    exact max_eq_left hprople
  · intro r hr
    rcases List.mem_filterMap.1 (mem_of_mem_take_sortDesc
      (by simpa [GraphTraversalSearch.search] using hr)) with ⟨p, hp, hsome⟩
    rcases Option.map_eq_some'.1 hsome with ⟨nd, hnd, hre⟩
    exact ⟨p, hp, by rw [hnd, ← hre], by rw [← hre]⟩
  · rw [GraphTraversalSearch.search]
    exact pairwise_take_sortDesc _ _
  · rw [GraphTraversalSearch.search]
    exact List.length_take_le _ _

/-- Witness for C1 at concrete inputs: on the demo graph the query alpha
seeds the first node, whose combined final score is exactly 1. -/
theorem C1_graph_traversal_witness :
    (lookup (GraphTraversalSearch.base_scores gDemo "alpha") "n1").isSome
    ∧ lookupD (gt_combined gDemo 2 "alpha") "n1" 0 = 1 :=
  ⟨by with_unfolding_all decide,
   (C1_graph_traversal 2 gDemo "alpha" 5).2.2.2.2.2.1 "n1"
     (by with_unfolding_all decide)⟩

/-! Claim C6: run_round normalization, returned keys and hybrid feeding. -/

/-- The spec's per-example precision at 5 of one constituent. -/
def round_prec (L : SearchLeague) (s : SearchStrategy) (ex : QueryExample) : ℚ :=
  precision_at_k (s.search L.graph ex.query 5) ex.relevant_ids 5

/-- The spec's per-example hybrid advantage over one constituent. -/
def round_adv (L : SearchLeague) (s : SearchStrategy) (ex : QueryExample) : ℚ :=
  precision_at_k (L.hybrid.search L.graph ex.query 5) ex.relevant_ids 5
    - precision_at_k (s.search L.graph ex.query 5) ex.relevant_ids 5

theorem precision_at_k_nonneg (results : List SearchResult)
    (relevant_ids : List String) (k : Nat) :
    0 ≤ precision_at_k results relevant_ids k := by
  unfold precision_at_k
  by_cases h : results.take k = []
  · simp [h]
  · simp only [h, if_false]
    positivity

theorem keys_foldl_upsert_zero :
    ∀ (l : List SearchStrategy) (m : List (String × ℚ)),
    (m.map Prod.fst ++ l.map (fun s => s.name)).Nodup →
    ((l.foldl (fun m' s => upsert m' s.name 0) m).map Prod.fst)
      = m.map Prod.fst ++ l.map (fun s => s.name) := by
  intro l
  induction l with
  | nil => intro m _; simp
  | cons s l ih =>
    intro m hnd
    rw [List.map_cons, List.foldl_cons]
    have hs : s.name ∉ m.map Prod.fst := by
      intro hmem
      rcases List.nodup_append.1 hnd with ⟨_, _, hdisj⟩
      exact hdisj hmem (List.mem_cons_self _ _)
    have hkeys : (upsert m s.name 0).map Prod.fst = m.map Prod.fst ++ [s.name] := by
      rw [keys_upsert, if_neg hs]
    have hnd' : ((upsert m s.name 0).map Prod.fst
        ++ l.map (fun s' => s'.name)).Nodup := by
      rw [hkeys, List.append_assoc]
      exact hnd
    rw [ih (upsert m s.name 0) hnd', hkeys, List.append_assoc]
    rfl

theorem perf0_mem_val (l : List SearchStrategy) :
    ∀ p ∈ l.foldl (fun m s => upsert m s.name 0) [], p.2 = (0 : ℚ) := by
  have key : ∀ (l' : List SearchStrategy) (m : List (String × ℚ)),
      (∀ p ∈ m, p.2 = (0 : ℚ)) →
      ∀ p ∈ l'.foldl (fun m' s => upsert m' s.name 0) m, p.2 = 0 := by
    intro l'
    induction l' with
    | nil => exact fun m hm => hm
    | cons s l' ih =>
      intro m hm
      rw [List.foldl_cons]
      refine ih _ ?_
      intro p hp
      rcases mem_upsert hp with h' | h'
      · exact hm p h'
      · rw [h']
  exact key l [] (by intro p hp; simp at hp)

theorem lookup_untouched (k : String) (f : SearchStrategy → ℚ) :
    ∀ (l : List SearchStrategy) (m : List (String × ℚ)), (∀ s ∈ l, s.name ≠ k) →
    lookup (l.foldl (fun m' s => dd_add m' s.name (f s)) m) k = lookup m k := by
  intro l
  induction l with
  | nil => exact fun m _ => rfl
  | cons t l ih =>
    intro m hl
    rw [List.foldl_cons, ih _ (fun s hs => hl s (List.mem_cons_of_mem _ hs)),
      lookup_dd_add, if_neg]
    intro he
    exact hl t (List.mem_cons_self _ _) he.symm

theorem inner_step (f : SearchStrategy → ℚ) :
    ∀ (l : List SearchStrategy), (l.map (fun s => s.name)).Nodup →
    ∀ s ∈ l, ∀ (m : List (String × ℚ)) (c : ℚ), lookup m s.name = some c →
    lookup (l.foldl (fun m' s' => dd_add m' s'.name (f s')) m) s.name
      = some (c + f s) := by
  intro l
  induction l with
  | nil => intro _ s hs; simp at hs
  | cons t l ih =>
    intro hnd s hs m c hc
    rw [List.map_cons] at hnd
    rcases List.nodup_cons.1 hnd with ⟨ht, hl⟩
    rw [List.foldl_cons]
    rcases List.mem_cons.1 hs with rfl | hs'
    · have huntouched : ∀ s' ∈ l, s'.name ≠ s.name := by
        intro s' hs' he
        exact ht (he ▸ List.mem_map_of_mem (fun x => x.name) hs')
      rw [lookup_untouched s.name f l _ huntouched, lookup_dd_add, if_pos rfl,
        lookupD, hc]
      rfl
    · have hne : ¬ s.name = t.name := by
        intro he
        exact ht (he ▸ List.mem_map_of_mem (fun x => x.name) hs')
      have hc' : lookup (dd_add m t.name (f t)) s.name = some c := by
        rw [lookup_dd_add, if_neg hne]
        exact hc
      exact ih hl s hs' _ c hc'

theorem outer_sum (ff : SearchStrategy → QueryExample → ℚ) (l : List SearchStrategy)
    (hnd : (l.map (fun s => s.name)).Nodup) (s : SearchStrategy) (hs : s ∈ l) :
    ∀ (exs : List QueryExample) (m : List (String × ℚ)) (c : ℚ),
    lookup m s.name = some c →
    lookup (exs.foldl (fun m' ex =>
      l.foldl (fun m'' s' => dd_add m'' s'.name (ff s' ex)) m') m) s.name
      = some (c + (exs.map (ff s)).sum) := by
  intro exs
  induction exs with
  | nil =>
    intro m c hc
    simpa using hc
  | cons ex exs ih =>
    intro m c hc
    rw [List.foldl_cons]
    have h1 := inner_step (fun s' => ff s' ex) l hnd s hs m c hc
    have h2 := ih _ _ h1
    rw [h2, List.map_cons, List.sum_cons]
    ring_nf

theorem vals_nonneg_dd_add {m : List (String × ℚ)} {v : ℚ}
    (hm : ∀ p ∈ m, 0 ≤ p.2) (hv : 0 ≤ v) (k : String) :
    ∀ p ∈ dd_add m k v, 0 ≤ p.2 := by
  induction m with
  | nil =>
    intro p hp
    rcases List.mem_singleton.1 hp with rfl
    simpa using hv
  | cons q rest ih =>
    intro p hp
    rw [dd_add] at hp
    by_cases hq : q.1 = k
    · rw [if_pos hq] at hp
      rcases List.mem_cons.1 hp with rfl | h'
      · have := hm q (List.mem_cons_self _ _)
        simp only []
        positivity
      · exact hm p (List.mem_cons_of_mem _ h')
    · rw [if_neg hq] at hp
      rcases List.mem_cons.1 hp with rfl | h'
      · exact hm p (List.mem_cons_self _ _)
      · exact ih (fun p' hp' => hm p' (List.mem_cons_of_mem _ hp')) p h'

theorem vals_nonneg_inner (f : SearchStrategy → ℚ) (hf : ∀ s, 0 ≤ f s) :
    ∀ (l : List SearchStrategy) (m : List (String × ℚ)), (∀ p ∈ m, 0 ≤ p.2) →
    ∀ p ∈ l.foldl (fun m' s => dd_add m' s.name (f s)) m, 0 ≤ p.2 := by
  intro l
  induction l with
  | nil => exact fun m hm => hm
  | cons s l ih =>
    intro m hm
    rw [List.foldl_cons]
    exact ih _ (vals_nonneg_dd_add hm (hf s) s.name)

theorem vals_nonneg_outer (ff : SearchStrategy → QueryExample → ℚ)
    (hf : ∀ s ex, 0 ≤ ff s ex) (l : List SearchStrategy) :
    ∀ (exs : List QueryExample) (m : List (String × ℚ)), (∀ p ∈ m, 0 ≤ p.2) →
    ∀ p ∈ exs.foldl (fun m' ex =>
      l.foldl (fun m'' s' => dd_add m'' s'.name (ff s' ex)) m') m, 0 ≤ p.2 := by
  intro exs
  induction exs with
  | nil => exact fun m hm => hm
  | cons ex exs ih =>
    intro m hm
    rw [List.foldl_cons]
    exact ih _ (vals_nonneg_inner (fun s => ff s ex) (fun s => hf s ex) l m hm)

theorem keys_inner_preserved (f : SearchStrategy → ℚ) :
    ∀ (l : List SearchStrategy) (m : List (String × ℚ)),
    (∀ s ∈ l, s.name ∈ m.map Prod.fst) →
    (l.foldl (fun m' s => dd_add m' s.name (f s)) m).map Prod.fst
      = m.map Prod.fst := by
  intro l
  induction l with
  | nil => exact fun m _ => rfl
  | cons s l ih =>
    intro m hm
    rw [List.foldl_cons]
    have hk : (dd_add m s.name (f s)).map Prod.fst = m.map Prod.fst := by
      rw [keys_dd_add, if_pos (hm s (List.mem_cons_self _ _))]
    rw [ih _ ?_, hk]
    intro s' hs'
    rw [hk]
    exact hm s' (List.mem_cons_of_mem _ hs')

theorem keys_outer_preserved (ff : SearchStrategy → QueryExample → ℚ)
    (l : List SearchStrategy) :
    ∀ (exs : List QueryExample) (m : List (String × ℚ)),
    (∀ s ∈ l, s.name ∈ m.map Prod.fst) →
    (exs.foldl (fun m' ex =>
      l.foldl (fun m'' s' => dd_add m'' s'.name (ff s' ex)) m') m).map Prod.fst
      = m.map Prod.fst := by
  intro exs
  induction exs with
  | nil => exact fun m _ => rfl
  | cons ex exs ih =>
    intro m hm
    rw [List.foldl_cons]
    have hk := keys_inner_preserved (fun s => ff s ex) l m hm
    rw [ih _ ?_, hk]
    intro s' hs'
    rw [hk]
    exact hm s' hs'

theorem keys_map_snd {α β : Type} (m : List (String × α)) (f : α → β) :
    (m.map (fun p => (p.1, f p.2))).map Prod.fst = m.map Prod.fst := by
  rw [List.map_map]
  rfl

theorem run_round_split (L : SearchLeague) :
    run_round L
      = ({ L with
             hybrid := update_weights L.hybrid
               ((L.evaluation_set.foldl (fun m ex =>
                   L.strategies.foldl
                     (fun m' s => dd_add m' s.name (round_adv L s ex)) m)
                 (L.strategies.foldl (fun m s => upsert m s.name 0) [])).map
                 (fun p => (p.1, p.2 / ((max L.evaluation_set.length 1 : Nat) : ℚ))))
               (1 / 10) },
         (L.evaluation_set.foldl (fun m ex =>
            L.strategies.foldl (fun m' s => dd_add m' s.name (round_prec L s ex)) m)
            (L.strategies.foldl (fun m s => upsert m s.name 0) [])).map
            (fun p => (p.1, p.2 / ((max L.evaluation_set.length 1 : Nat) : ℚ)))) := by
  have hfold := pair_foldl_split L.evaluation_set
    (fun m ex => L.strategies.foldl (fun m' s => dd_add m' s.name
      (precision_at_k (s.search L.graph ex.query 5) ex.relevant_ids 5)) m)
    (fun m ex => L.strategies.foldl (fun m' s => dd_add m' s.name
      (precision_at_k (L.hybrid.search L.graph ex.query 5) ex.relevant_ids 5
        - precision_at_k (s.search L.graph ex.query 5) ex.relevant_ids 5)) m)
    (L.strategies.foldl (fun m s => upsert m s.name 0) [])
    (L.strategies.foldl (fun m s => upsert m s.name 0) [])
  simp only [run_round]
  rw [hfold]
  rfl

set_option maxHeartbeats 1000000 in
/-- C6: run_round divides every accumulated precision and hybrid-advantage
value by the number of evaluation examples (by 1 when the set is empty),
feeds the mean hybrid-advantage map into the hybrid's update_weights with
learning rate 0.1, and returns a mean precision-at-5 map keyed exactly by
the constituent strategy names (so the hybrid's own precision, which is
not a constituent key, is not in the returned map); every returned score
is non-negative. -/
theorem C6_run_round (L : SearchLeague)
    (hnd : (L.strategies.map (fun s => s.name)).Nodup) :
    ((run_round L).2.map Prod.fst = L.strategies.map (fun s => s.name))
    ∧ (∀ p ∈ (run_round L).2, 0 ≤ p.2)
    ∧ (∀ s ∈ L.strategies, lookup (run_round L).2 s.name
        = some ((L.evaluation_set.map (round_prec L s)).sum
            / ((max L.evaluation_set.length 1 : Nat) : ℚ)))
    ∧ (∃ M, (run_round L).1.hybrid = update_weights L.hybrid M (1 / 10)
        ∧ ∀ s ∈ L.strategies, lookup M s.name
          = some ((L.evaluation_set.map (round_adv L s)).sum
              / ((max L.evaluation_set.length 1 : Nat) : ℚ))) := by
  have hqc : (0 : ℚ) < ((max L.evaluation_set.length 1 : Nat) : ℚ) := by
    have : 1 ≤ max L.evaluation_set.length 1 := le_max_right _ _
    exact_mod_cast lt_of_lt_of_le Nat.zero_lt_one (by exact_mod_cast this)
  have hperf0keys : ((L.strategies.foldl (fun m s => upsert m s.name 0)
      ([] : List (String × ℚ))).map
      Prod.fst) = L.strategies.map (fun s => s.name) := by
    have := keys_foldl_upsert_zero L.strategies [] (by simpa using hnd)
    simpa using this
  have hperf0mem : ∀ s ∈ L.strategies, s.name ∈
      ((L.strategies.foldl (fun m s => upsert m s.name 0)
        ([] : List (String × ℚ))).map Prod.fst) := by
    intro s hs
    rw [hperf0keys]
    exact List.mem_map_of_mem (fun x => x.name) hs
  have hperf0lookup : ∀ s ∈ L.strategies,
      lookup (L.strategies.foldl (fun m s => upsert m s.name 0)
        ([] : List (String × ℚ))) s.name
        = some (0 : ℚ) := by
    intro s hs
    have hsome : (lookup (L.strategies.foldl (fun m s => upsert m s.name 0)
        ([] : List (String × ℚ))) s.name).isSome :=
      (lookup_isSome_iff _ _).2 (hperf0mem s hs)
    rcases Option.isSome_iff_exists.1 hsome with ⟨v, hv⟩
    have hv0 : v = 0 := perf0_mem_val L.strategies (s.name, v)
      (mem_of_lookup_eq_some hv)
    rw [hv, hv0]
  rw [run_round_split L]
  refine ⟨?_, ?_, ?_, ?_⟩
  · rw [keys_map_snd _ (fun x : ℚ => x / ((max L.evaluation_set.length 1 : Nat) : ℚ)),
      keys_outer_preserved (round_prec L) L.strategies
      L.evaluation_set _ hperf0mem, hperf0keys]
  · intro p hp
    rcases List.mem_map.1 hp with ⟨q, hq, rfl⟩
    have hq2 : 0 ≤ q.2 := vals_nonneg_outer (round_prec L)
      (fun s ex => precision_at_k_nonneg _ _ _) L.strategies L.evaluation_set _
      (fun p' hp' => le_of_eq (perf0_mem_val L.strategies p' hp').symm) q hq
    exact div_nonneg hq2 (le_of_lt hqc)
  · intro s hs
    rw [lookup_map_snd _ (fun x : ℚ => x / ((max L.evaluation_set.length 1 : Nat) : ℚ))]
    rw [outer_sum (round_prec L) L.strategies hnd s hs L.evaluation_set _ 0
      (hperf0lookup s hs)]
    rw [Option.map_some']
    rw [zero_add]
  · refine ⟨(L.evaluation_set.foldl (fun m ex =>
      L.strategies.foldl (fun m' s => dd_add m' s.name (round_adv L s ex)) m)
      (L.strategies.foldl (fun m s => upsert m s.name 0) [])).map
      (fun p => (p.1, p.2 / ((max L.evaluation_set.length 1 : Nat) : ℚ))), rfl, ?_⟩
    intro s hs
    rw [lookup_map_snd _ (fun x : ℚ => x / ((max L.evaluation_set.length 1 : Nat) : ℚ))]
    rw [outer_sum (round_adv L) L.strategies hnd s hs L.evaluation_set _ 0
      (hperf0lookup s hs)]
    rw [Option.map_some']
    rw [zero_add]

/-- Witness for C6 at concrete inputs: a league of one Ontology constituent
with one example; applying the theorem yields the mean precision entry. -/
theorem C6_run_round_witness :
    ((([⟨"ontology", OntologyLensSearch.search⟩] :
        List SearchStrategy).map (fun s => s.name)).Nodup)
    ∧ lookup (run_round (league_init gDemo [⟨"ontology", OntologyLensSearch.search⟩]
        [⟨"deep and overview", ["n1"]⟩])).2 "ontology"
      = some ((((league_init gDemo [⟨"ontology", OntologyLensSearch.search⟩]
          [⟨"deep and overview", ["n1"]⟩]).evaluation_set.map
          (round_prec (league_init gDemo [⟨"ontology", OntologyLensSearch.search⟩]
            [⟨"deep and overview", ["n1"]⟩]
          ) ⟨"ontology", OntologyLensSearch.search⟩)).sum)
          / ((max (league_init gDemo [⟨"ontology", OntologyLensSearch.search⟩]
            [⟨"deep and overview", ["n1"]⟩]).evaluation_set.length 1 : Nat) : ℚ)) := by
  constructor
  · exact List.nodup_singleton _
  · exact (C6_run_round (league_init gDemo [⟨"ontology", OntologyLensSearch.search⟩]
        [⟨"deep and overview", ["n1"]⟩]) (List.nodup_singleton _)).2.2.1
      ⟨"ontology", OntologyLensSearch.search⟩ (List.mem_singleton.2 rfl)

end SSE
